import Mathlib

/-!
# Verification of the split-bill calculator core (`splitlogic.py`)

Shallow embedding of the two core functions of the repository:

* `compute_balances(names, amounts)` — total expense, equal share, and the
  per-person balance dictionary (`round(amt - equal_share, 2)`).
* `settle_debts(balances)` — greedy largest-debtor / largest-creditor
  two-pointer sweep producing `(payer, receiver, amount)` transactions.

Money values are modelled as rationals (`ℚ`); Python's `round(x, 2)` is
modelled as rounding `100 * x` to the nearest integer and dividing by `100`
(ties go half-up via Mathlib's `round`; no property proved below depends on
the tie direction).  Python dictionaries are modelled as insertion-ordered
association lists with update-in-place-or-append semantics (`dictInsert`).
Python's stable `list.sort(key=..., reverse=True)` is modelled by a stable
descending insertion sort, which is extensionally equal to every stable sort
by the same key.  The `while` loop of `settle_debts` is modelled by a
fuel-indexed recursion (`settleLoop`): one unit of fuel per iteration, with
`none` meaning the loop would still be running after `fuel` iterations, so
that termination of the Python loop is a provable statement rather than a
modelling assumption.  Advancing a pointer past an entry is modelled by
dropping the (fully settled) head of the corresponding list.
-/

/-- Rounding to two decimal places: `round(x, 2)` of the source, modelled as
rounding `100 * x` to the nearest integer, then dividing by `100`. -/
def round2 (x : ℚ) : ℚ := ((round (100 * x) : ℤ) : ℚ) / 100

/-- A rational that is a whole number of cents, i.e. an integer multiple of
`1/100`.  All values produced by `round2` have this form. -/
def IsCent (x : ℚ) : Prop := ∃ k : ℤ, x = (k : ℚ) / 100

/-- Python-dict assignment `d[k] = v` on an insertion-ordered association
list: overwrite in place when the key is present, append otherwise. -/
def dictInsert : List (String × ℚ) → String → ℚ → List (String × ℚ)
  | [], k, v => [(k, v)]
  | p :: rest, k, v =>
      if p.1 = k then (k, v) :: rest else p :: dictInsert rest k v

/-- Builds a Python dict from a list of key/value pairs by inserting them in
order into an initially empty dict. -/
def dictOfPairs (l : List (String × ℚ)) : List (String × ℚ) :=
  l.foldl (fun d p => dictInsert d p.1 p.2) []

/-- `compute_balances` (src/splitlogic.py:58-81): returns
`(total_expense, equal_share, balances)` where
`total_expense = sum(amounts)`, `equal_share = total / n if n > 0 else 0.0`,
and `balances[name] = round(amt - equal_share, 2)` for each
`(name, amt)` in `zip(names, amounts)`. -/
def compute_balances (names : List String) (amounts : List ℚ) :
    ℚ × ℚ × List (String × ℚ) :=
  let total_expense := amounts.sum
  let n := names.length
  let equal_share := if 0 < n then total_expense / (n : ℚ) else 0
  let balances :=
    dictOfPairs ((names.zip amounts).map (fun p => (p.1, round2 (p.2 - equal_share))))
  (total_expense, equal_share, balances)

/-- Creditor extraction of `settle_debts` (src/splitlogic.py:100-102):
entries of the balance dict with balance strictly above the `0.01`
tolerance, kept in dict order. -/
def creditorsOf (balances : List (String × ℚ)) : List (String × ℚ) :=
  balances.filterMap (fun p => if 1/100 < p.2 then some (p.1, p.2) else none)

/-- Debtor extraction of `settle_debts` (src/splitlogic.py:103-104):
entries with balance strictly below `-0.01`, stored as the positive amount
owed, in dict order. -/
def debtorsOf (balances : List (String × ℚ)) : List (String × ℚ) :=
  balances.filterMap (fun p => if p.2 < -(1/100) then some (p.1, -p.2) else none)

/-- Stable descending insertion of an entry by amount: the entry goes in
front of the first strictly smaller amount, after all earlier entries with
greater-or-equal amounts (so ties keep their original relative order). -/
def insertDesc (x : String × ℚ) : List (String × ℚ) → List (String × ℚ)
  | [] => [x]
  | y :: ys => if x.2 < y.2 then y :: insertDesc x ys else x :: y :: ys

/-- Stable descending sort by amount, modelling
`list.sort(key=lambda x: x[1], reverse=True)` (src/splitlogic.py:107-108);
any two stable sorts by the same key agree extensionally. -/
def sortDesc (l : List (String × ℚ)) : List (String × ℚ) :=
  l.foldr insertDesc []

/-- One pass of the two-pointer settlement loop (src/splitlogic.py:110-135),
with one unit of fuel per iteration of the `while`.  Returns the
transactions produced from this point on together with the still-unsettled
suffixes of the debtor and creditor lists at loop exit; `none` means the
loop would still be running after `fuel` iterations.  Advancing a pointer is
modelled by dropping the settled head entry. -/
def settleLoop :
    Nat → List (String × ℚ) → List (String × ℚ) →
      Option (List (String × String × ℚ) × List (String × ℚ) × List (String × ℚ))
  | _, [], C => some ([], [], C)
  | _, D, [] => some ([], D, [])
  | Nat.succ fuel, d :: D, c :: C =>
      let amount := round2 (min d.2 c.2)
      let dRem := round2 (d.2 - amount)
      let cRem := round2 (c.2 - amount)
      let newD := if dRem < 1/100 then D else (d.1, dRem) :: D
      let newC := if cRem < 1/100 then C else (c.1, cRem) :: C
      match settleLoop fuel newD newC with
      | none => none
      | some (txs, De, Ce) =>
          some (if 0 < amount then (d.1, c.1, amount) :: txs else txs, De, Ce)
  | 0, _ :: _, _ :: _ => none

/-- `settle_debts` (src/splitlogic.py:83-135): partition the balance dict
into creditors and debtors, sort both descending by amount (stable), then
run the two-pointer sweep.  The fuel `|debtors| + |creditors|` is an upper
bound on the number of loop iterations, proved sufficient below; `none`
would mean the loop failed to terminate within that many iterations. -/
def settle_debts (balances : List (String × ℚ)) :
    Option (List (String × String × ℚ)) :=
  let creditors := sortDesc (creditorsOf balances)
  let debtors := sortDesc (debtorsOf balances)
  (settleLoop (debtors.length + creditors.length) debtors creditors).map
    (fun r => r.1)

/-- Total amount paid by `n` as payer over a transaction list. -/
def paidBy (n : String) (txs : List (String × String × ℚ)) : ℚ :=
  ((txs.filter (fun t => t.1 == n)).map (fun t => t.2.2)).sum

/-- Total amount received by `n` as receiver over a transaction list. -/
def recvBy (n : String) (txs : List (String × String × ℚ)) : ℚ :=
  ((txs.filter (fun t => t.2.1 == n)).map (fun t => t.2.2)).sum

/-- Balance of participant `p` after applying every transaction: each
transaction subtracts its amount from the payer's debt (raising the payer's
balance) and from the receiver's credit (lowering the receiver's balance). -/
def finalBal (p : String × ℚ) (txs : List (String × String × ℚ)) : ℚ :=
  p.2 + paidBy p.1 txs - recvBy p.1 txs

/-- Sum of the amounts of an entry list. -/
def sumAmts (l : List (String × ℚ)) : ℚ := (l.map (fun p => p.2)).sum

/-- Amount recorded for name `n` in an entry list, `0` when absent. -/
def lookupAmt (n : String) (l : List (String × ℚ)) : ℚ :=
  match l.find? (fun p => p.1 == n) with
  | some p => p.2
  | none => 0

/-! ### One iteration of the sweep, repackaged for reasoning -/

/-- The amount settled in one loop iteration: `round(min(d, c), 2)`. -/
def stepAmount (d c : String × ℚ) : ℚ := round2 (min d.2 c.2)

/-- The debtor list after one iteration: drop the head when its remainder
falls below the tolerance, otherwise keep it with the updated remainder. -/
def stepNewD (d c : String × ℚ) (D : List (String × ℚ)) : List (String × ℚ) :=
  if round2 (d.2 - stepAmount d c) < 1/100 then D
  else (d.1, round2 (d.2 - stepAmount d c)) :: D

/-- The creditor list after one iteration, as for `stepNewD`. -/
def stepNewC (d c : String × ℚ) (C : List (String × ℚ)) : List (String × ℚ) :=
  if round2 (c.2 - stepAmount d c) < 1/100 then C
  else (c.1, round2 (c.2 - stepAmount d c)) :: C

/-- Everything the sweep guarantees about its output when fed cent-multiple
entries above the tolerance with pairwise-distinct names: one side is fully
exhausted; leftover entries keep amounts of at least one cent; leftover
names are a suffix of the input names; payers come from the debtor list and
receivers from the creditor list; each debtor has paid exactly its original
amount minus what it still owes in the leftover list (and creditors
likewise); and the two sides decrease by the same total. -/
structure SettlePost (D C : List (String × ℚ))
    (txs : List (String × String × ℚ)) (De Ce : List (String × ℚ)) : Prop where
  exhausted : De = [] ∨ Ce = []
  amtsDe : ∀ p ∈ De, 1/100 ≤ p.2
  amtsCe : ∀ p ∈ Ce, 1/100 ≤ p.2
  sufDe : (De.map Prod.fst) <:+ (D.map Prod.fst)
  sufCe : (Ce.map Prod.fst) <:+ (C.map Prod.fst)
  txMem : ∀ t ∈ txs, t.1 ∈ D.map Prod.fst ∧ t.2.1 ∈ C.map Prod.fst
  paid : ∀ p ∈ D, paidBy p.1 txs = p.2 - lookupAmt p.1 De
  recv : ∀ p ∈ C, recvBy p.1 txs = p.2 - lookupAmt p.1 Ce
  sums : sumAmts D - sumAmts De = sumAmts C - sumAmts Ce

/-- Description of `compute_balances` taken from the specification text
(§4.1): `total` is the sum of the amounts, `share` is `total / N` when
`N > 0` and `0` otherwise, and the mapping sends each name to
`round(amount_i - share, 2)`. -/
def compute_balances_spec (names : List String) (amounts : List ℚ) :
    ℚ × ℚ × List (String × ℚ) :=
  let total := amounts.sum
  let share := if 0 < names.length then total / (names.length : ℚ) else 0
  (total, share, (names.zip amounts).map (fun q => (q.1, round2 (q.2 - share))))

/-- The two core operations composed: balances first, then settlement. -/
def run_split (names : List String) (amounts : List ℚ) :
    (ℚ × ℚ × List (String × ℚ)) × Option (List (String × String × ℚ)) :=
  let r := compute_balances names amounts
  (r, settle_debts r.2.2)

/-- The sweep with the caller's balance dictionary threaded through as
explicit state.  The loop body (src/splitlogic.py:112-133) assigns only to
`amount`, the fresh `debtors`/`creditors` lists (built from copies
`[name, bal]` at lines 102 and 104) and `transactions`; no statement writes
to `balances`, which this model makes visible by passing `bal` through every
iteration untouched. -/
def settleLoopSt :
    Nat → List (String × ℚ) → List (String × ℚ) → List (String × ℚ) →
      Option (List (String × String × ℚ) × List (String × ℚ))
  | _, bal, [], _ => some ([], bal)
  | _, bal, _, [] => some ([], bal)
  | Nat.succ fuel, bal, d :: D, c :: C =>
      let amount := round2 (min d.2 c.2)
      let dRem := round2 (d.2 - amount)
      let cRem := round2 (c.2 - amount)
      let newD := if dRem < 1/100 then D else (d.1, dRem) :: D
      let newC := if cRem < 1/100 then C else (c.1, cRem) :: C
      match settleLoopSt fuel bal newD newC with
      | none => none
      | some (txs, bal') =>
          some (if 0 < amount then (d.1, c.1, amount) :: txs else txs, bal')
  | 0, _, _ :: _, _ :: _ => none

/-- `settle_debts` with the balance dictionary as explicit state: the pair
returned is (transactions, the dictionary after the call). -/
def settle_debts_state (bal : List (String × ℚ)) :
    Option (List (String × String × ℚ) × List (String × ℚ)) :=
  let creditors := sortDesc (creditorsOf bal)
  let debtors := sortDesc (debtorsOf bal)
  settleLoopSt (debtors.length + creditors.length) bal debtors creditors

/-! ### Basic facts about `round2` and cent multiples -/

theorem round2_def (x : ℚ) : round2 x = ((round (100 * x) : ℤ) : ℚ) / 100 := rfl

theorem isCent_round2 (x : ℚ) : IsCent (round2 x) := ⟨round (100 * x), rfl⟩

theorem round2_cent (x : ℚ) (k : ℤ) (h : 100 * x = (k : ℚ)) : round2 x = x := by
  rw [round2_def, h, round_intCast]
  have hx : x = (k : ℚ) / 100 := by
    field_simp at h ⊢
    linarith
  rw [hx]

theorem IsCent.round2_eq {x : ℚ} (h : IsCent x) : round2 x = x := by
  obtain ⟨k, rfl⟩ := h
  exact round2_cent _ k (by field_simp)

theorem IsCent.sub {x y : ℚ} (hx : IsCent x) (hy : IsCent y) : IsCent (x - y) := by
  obtain ⟨k, rfl⟩ := hx
  obtain ⟨m, rfl⟩ := hy
  exact ⟨k - m, by push_cast; ring⟩

theorem IsCent.neg {x : ℚ} (hx : IsCent x) : IsCent (-x) := by
  obtain ⟨k, rfl⟩ := hx
  exact ⟨-k, by push_cast; ring⟩

theorem IsCent.min {x y : ℚ} (hx : IsCent x) (hy : IsCent y) : IsCent (min x y) := by
  rcases le_total x y with h | h
  · rwa [min_eq_left h]
  · rwa [min_eq_right h]

/-- A nonnegative cent multiple below the `0.01` tolerance is exactly zero. -/
theorem IsCent.eq_zero_of_lt {x : ℚ} (hx : IsCent x) (h0 : 0 ≤ x) (h1 : x < 1/100) :
    x = 0 := by
  obtain ⟨k, rfl⟩ := hx
  have h100 : (0:ℚ) < 100 := by norm_num
  have hk1 : (k : ℚ) < 1 := by
    have := (div_lt_div_iff_of_pos_right h100).2 h1
    calc (k : ℚ) = (k : ℚ) / 100 * 100 := by ring
    _ < 1 / 100 * 100 := by
        exact mul_lt_mul_of_pos_right h1 h100
    _ = 1 := by norm_num
  have hk0 : (0 : ℚ) ≤ (k : ℚ) := by
    by_contra hneg
    push_neg at hneg
    have : (k : ℚ) / 100 < 0 := div_neg_of_neg_of_pos hneg h100
    linarith
  have hk1' : k < 1 := by exact_mod_cast hk1
  have hk0' : 0 ≤ k := by exact_mod_cast hk0
  have : k = 0 := by omega
  rw [this]
  norm_num

/-- The rounding error of `round2` is at most half a cent. -/
theorem abs_round2_sub (x : ℚ) : |round2 x - x| ≤ 1/200 := by
  rw [round2_def]
  have h := abs_sub_round (100 * x)
  have heq : ((round (100 * x) : ℤ) : ℚ) / 100 - x = -((100 * x - round (100 * x)) / 100) := by
    ring
  rw [heq, abs_neg, abs_div]
  have : |(100 : ℚ)| = 100 := by norm_num
  rw [this]
  linarith [abs_sub_round (100 * x)]

/-- Re-rounding the residue left by `round2` gives exactly zero: the residue
lies in `[-1/200, 1/200)`, which rounds to `0`.  This is the reason the
two-pointer sweep always retires at least one entry per iteration. -/
theorem round2_sub_round2 (x : ℚ) : round2 (x - round2 x) = 0 := by
  rw [round2_def x]
  set k := round (100 * x) with hk
  have harg : 100 * (x - ((k : ℤ) : ℚ) / 100) = 100 * x - (k : ℚ) := by ring
  rw [round2_def, harg, round_sub_int, ← hk]
  simp

theorem round2_zero : round2 0 = 0 := by
  rw [round2_def]
  norm_num

/-! ### Dictionary lemmas -/

theorem dictInsert_names (l : List (String × ℚ)) (k : String) (v : ℚ) :
    (dictInsert l k v).map Prod.fst =
      if k ∈ l.map Prod.fst then l.map Prod.fst else l.map Prod.fst ++ [k] := by
  induction l with
  | nil => simp [dictInsert]
  | cons p rest ih =>
      by_cases hpk : p.1 = k
      · simp [dictInsert, hpk]
      · have hkp : ¬ k = p.1 := fun hc => hpk hc.symm
        by_cases hmem : k ∈ rest.map Prod.fst
        · simp [dictInsert, hpk, ih, hmem, hkp]
        · simp [dictInsert, hpk, ih, hmem, hkp]

theorem dictInsert_mem {l : List (String × ℚ)} {k : String} {v : ℚ}
    {q : String × ℚ} (h : q ∈ dictInsert l k v) : q ∈ l ∨ q = (k, v) := by
  induction l with
  | nil => simp [dictInsert] at h; simp [h]
  | cons p rest ih =>
      by_cases hpk : p.1 = k
      · simp [dictInsert, hpk] at h
        rcases h with h | h
        · right; simp [h]
        · left; simp [h]
      · simp [dictInsert, hpk] at h
        rcases h with h | h
        · left; simp [h]
        · rcases ih h with h' | h'
          · left; simp [h']
          · right; exact h'

theorem dictInsert_nodup {l : List (String × ℚ)} (k : String) (v : ℚ)
    (h : (l.map Prod.fst).Nodup) : ((dictInsert l k v).map Prod.fst).Nodup := by
  rw [dictInsert_names]
  by_cases hmem : k ∈ l.map Prod.fst
  · simpa [hmem]
  · simp only [hmem, if_false]
    simpa [List.nodup_append, hmem] using h

theorem dictInsert_not_mem {l : List (String × ℚ)} {k : String} (v : ℚ)
    (h : k ∉ l.map Prod.fst) : dictInsert l k v = l ++ [(k, v)] := by
  induction l with
  | nil => simp [dictInsert]
  | cons p rest ih =>
      simp only [List.map_cons, List.mem_cons] at h
      push_neg at h
      have hpk : p.1 ≠ k := fun hc => h.1 hc.symm
      simp [dictInsert, hpk, ih h.2]

theorem dictOfPairs_aux_nodup (l : List (String × ℚ)) :
    ∀ acc : List (String × ℚ), (acc.map Prod.fst).Nodup →
      ((l.foldl (fun d p => dictInsert d p.1 p.2) acc).map Prod.fst).Nodup := by
  induction l with
  | nil => intro acc h; simpa using h
  | cons p rest ih =>
      intro acc h
      exact ih (dictInsert acc p.1 p.2) (dictInsert_nodup p.1 p.2 h)

/-- The keys of a Python dict are unique by construction. -/
theorem dictOfPairs_nodup (l : List (String × ℚ)) :
    ((dictOfPairs l).map Prod.fst).Nodup :=
  dictOfPairs_aux_nodup l [] (by simp)

theorem dictOfPairs_aux_mem (l : List (String × ℚ)) :
    ∀ acc q, q ∈ l.foldl (fun d p => dictInsert d p.1 p.2) acc →
      q ∈ acc ∨ q ∈ l := by
  induction l with
  | nil => intro acc q h; exact Or.inl (by simpa using h)
  | cons p rest ih =>
      intro acc q h
      rcases ih (dictInsert acc p.1 p.2) q h with h' | h'
      · rcases dictInsert_mem h' with h'' | h''
        · exact Or.inl h''
        · right; simp [h'']
      · right; simp [h']

/-- Every entry of the dict is one of the inserted pairs. -/
theorem dictOfPairs_mem {l : List (String × ℚ)} {q : String × ℚ}
    (h : q ∈ dictOfPairs l) : q ∈ l := by
  rcases dictOfPairs_aux_mem l [] q h with h' | h'
  · simp at h'
  · exact h'

theorem dictOfPairs_aux_eq (l : List (String × ℚ)) :
    ∀ acc : List (String × ℚ),
      ((acc.map Prod.fst ++ l.map Prod.fst)).Nodup →
      l.foldl (fun d p => dictInsert d p.1 p.2) acc = acc ++ l := by
  induction l with
  | nil => intro acc _; simp
  | cons p rest ih =>
      intro acc h
      have hp : p.1 ∉ acc.map Prod.fst := by
        intro hc
        rw [List.nodup_append] at h
        exact h.2.2 hc (by simp)
      have step : dictInsert acc p.1 p.2 = acc ++ [p] := by
        simpa using dictInsert_not_mem p.2 hp
      have h' : (((acc ++ [p]).map Prod.fst ++ rest.map Prod.fst)).Nodup := by
        simp only [List.map_append] at h ⊢
        simpa [List.append_assoc] using h
      simp only [List.foldl_cons, step, ih (acc ++ [p]) h']
      simp

/-- With pairwise-distinct keys a Python dict is just the list of its
insertions. -/
theorem dictOfPairs_eq_self {l : List (String × ℚ)}
    (h : (l.map Prod.fst).Nodup) : dictOfPairs l = l := by
  simpa using dictOfPairs_aux_eq l [] (by simpa using h)

/-- Distinct keys determine values: one key cannot hold two values. -/
theorem nodup_key_val {l : List (String × ℚ)} (h : (l.map Prod.fst).Nodup)
    {n : String} {a b : ℚ} (ha : (n, a) ∈ l) (hb : (n, b) ∈ l) : a = b := by
  induction l with
  | nil => simp at ha
  | cons p rest ih =>
      simp only [List.map_cons, List.nodup_cons] at h
      rcases List.mem_cons.1 ha with ha' | ha' <;>
        rcases List.mem_cons.1 hb with hb' | hb'
      · have : (n, a) = (n, b) := ha'.trans hb'.symm
        exact congrArg Prod.snd this
      · exfalso
        apply h.1
        rw [← ha']
        exact List.mem_map.2 ⟨(n, b), hb', rfl⟩
      · exfalso
        apply h.1
        rw [← hb']
        exact List.mem_map.2 ⟨(n, a), ha', rfl⟩
      · exact ih h.2 ha' hb'

/-! ### Sorting, partitioning and transaction bookkeeping -/

theorem insertDesc_perm (x : String × ℚ) (l : List (String × ℚ)) :
    (insertDesc x l).Perm (x :: l) := by
  induction l with
  | nil => simp [insertDesc]
  | cons y ys ih =>
      by_cases h : x.2 < y.2
      · simp only [insertDesc, if_pos h]
        exact (ih.cons y).trans (List.Perm.swap x y ys)
      · simp [insertDesc, if_neg h]

theorem sortDesc_perm (l : List (String × ℚ)) : (sortDesc l).Perm l := by
  induction l with
  | nil => simp [sortDesc]
  | cons x xs ih =>
      have hs : sortDesc (x :: xs) = insertDesc x (sortDesc xs) := rfl
      rw [hs]
      exact (insertDesc_perm x (sortDesc xs)).trans (ih.cons x)

theorem mem_creditorsOf {bal : List (String × ℚ)} {p : String × ℚ} :
    p ∈ creditorsOf bal ↔ p ∈ bal ∧ 1/100 < p.2 := by
  constructor
  · intro h
    rcases List.mem_filterMap.1 h with ⟨q, hq, hcond⟩
    by_cases hc : 1/100 < q.2
    · rw [if_pos hc, Option.some_inj] at hcond
      rw [← hcond]
      exact ⟨hq, hc⟩
    · rw [if_neg hc] at hcond
      exact absurd hcond (by simp)
  · intro ⟨hmem, hgt⟩
    refine List.mem_filterMap.2 ⟨p, hmem, ?_⟩
    rw [if_pos hgt]

theorem mem_debtorsOf {bal : List (String × ℚ)} {p : String × ℚ} :
    p ∈ debtorsOf bal ↔ (p.1, -p.2) ∈ bal ∧ 1/100 < p.2 := by
  constructor
  · intro h
    rcases List.mem_filterMap.1 h with ⟨q, hq, hcond⟩
    by_cases hc : q.2 < -(1/100)
    · rw [if_pos hc, Option.some_inj] at hcond
      rw [← hcond]
      have hgt : 1/100 < (q.1, -q.2).2 := by
        simp only []
        linarith
      exact ⟨by simpa using hq, hgt⟩
    · rw [if_neg hc] at hcond
      exact absurd hcond (by simp)
  · intro ⟨hmem, hgt⟩
    refine List.mem_filterMap.2 ⟨(p.1, -p.2), hmem, ?_⟩
    have hc : (p.1, -p.2).2 < -(1/100) := by
      simp only []
      linarith
    rw [if_pos hc]
    simp

theorem creditorsOf_names_sublist (bal : List (String × ℚ)) :
    ((creditorsOf bal).map Prod.fst).Sublist (bal.map Prod.fst) := by
  induction bal with
  | nil => simp [creditorsOf]
  | cons p rest ih =>
      by_cases hc : 1/100 < p.2
      · have hstep : creditorsOf (p :: rest) = (p.1, p.2) :: creditorsOf rest :=
          List.filterMap_cons_some (if_pos hc)
        rw [hstep, List.map_cons, List.map_cons]
        exact ih.cons₂ p.1
      · have hstep : creditorsOf (p :: rest) = creditorsOf rest :=
          List.filterMap_cons_none (if_neg hc)
        rw [hstep, List.map_cons]
        exact ih.cons p.1

theorem debtorsOf_names_sublist (bal : List (String × ℚ)) :
    ((debtorsOf bal).map Prod.fst).Sublist (bal.map Prod.fst) := by
  induction bal with
  | nil => simp [debtorsOf]
  | cons p rest ih =>
      by_cases hc : p.2 < -(1/100)
      · have hstep : debtorsOf (p :: rest) = (p.1, -p.2) :: debtorsOf rest :=
          List.filterMap_cons_some (if_pos hc)
        rw [hstep, List.map_cons, List.map_cons]
        exact ih.cons₂ p.1
      · have hstep : debtorsOf (p :: rest) = debtorsOf rest :=
          List.filterMap_cons_none (if_neg hc)
        rw [hstep, List.map_cons]
        exact ih.cons p.1

/-- Under unique keys, no name is both a debtor and a creditor: a single
balance cannot be both above `0.01` and below `-0.01`. -/
theorem debtor_creditor_disjoint {bal : List (String × ℚ)}
    (h : (bal.map Prod.fst).Nodup) {n : String}
    (hd : n ∈ (debtorsOf bal).map Prod.fst)
    (hc : n ∈ (creditorsOf bal).map Prod.fst) : False := by
  rcases List.mem_map.1 hd with ⟨p, hp, hpn⟩
  rcases List.mem_map.1 hc with ⟨q, hq, hqn⟩
  rcases mem_debtorsOf.1 hp with ⟨hpb, hpgt⟩
  rcases mem_creditorsOf.1 hq with ⟨hqb, hqgt⟩
  have hpb' : (n, -p.2) ∈ bal := by rwa [hpn] at hpb
  have hqb' : (n, q.2) ∈ bal := by
    rw [← hqn]
    simpa using hqb
  have := nodup_key_val h hpb' hqb'
  linarith

theorem lookupAmt_not_mem {n : String} {l : List (String × ℚ)}
    (h : n ∉ l.map Prod.fst) : lookupAmt n l = 0 := by
  have : l.find? (fun p => p.1 == n) = none := by
    rw [List.find?_eq_none]
    intro p hp
    simp only [beq_iff_eq]
    intro hc
    exact h (List.mem_map.2 ⟨p, hp, hc⟩)
  simp [lookupAmt, this]

theorem lookupAmt_of_mem {n : String} {a : ℚ} {l : List (String × ℚ)}
    (hnd : (l.map Prod.fst).Nodup) (h : (n, a) ∈ l) : lookupAmt n l = a := by
  induction l with
  | nil => simp at h
  | cons p rest ih =>
      simp only [List.map_cons, List.nodup_cons] at hnd
      rcases List.mem_cons.1 h with h' | h'
      · have hfind : (p :: rest).find? (fun q => q.1 == n) = some p := by
          apply List.find?_cons_of_pos
          rw [← h']
          simp
        unfold lookupAmt
        rw [hfind, ← h']
      · have hpn : p.1 ≠ n := by
          intro hc
          exact hnd.1 (hc ▸ List.mem_map.2 ⟨(n, a), h', rfl⟩)
        have hfind : (p :: rest).find? (fun q => q.1 == n) =
            rest.find? (fun q => q.1 == n) := by
          apply List.find?_cons_of_neg
          simp [hpn]
        have := ih hnd.2 h'
        unfold lookupAmt at this ⊢
        rw [hfind]
        exact this

theorem lookupAmt_nonneg {n : String} {l : List (String × ℚ)}
    (h : ∀ p ∈ l, 0 ≤ p.2) : 0 ≤ lookupAmt n l := by
  unfold lookupAmt
  cases hf : l.find? (fun p => p.1 == n) with
  | none => simp
  | some p => exact h p (List.mem_of_find?_eq_some hf)

theorem sumAmts_nonneg {l : List (String × ℚ)} (h : ∀ p ∈ l, 0 ≤ p.2) :
    0 ≤ sumAmts l := by
  induction l with
  | nil => simp [sumAmts]
  | cons p rest ih =>
      simp only [sumAmts, List.map_cons, List.sum_cons]
      have h1 := h p (by simp)
      have h2 := ih (fun q hq => h q (by simp [hq]))
      simp only [sumAmts] at h2
      linarith

theorem amt_le_sumAmts {l : List (String × ℚ)} (h : ∀ p ∈ l, 0 ≤ p.2)
    {p : String × ℚ} (hp : p ∈ l) : p.2 ≤ sumAmts l := by
  induction l with
  | nil => simp at hp
  | cons q rest ih =>
      simp only [sumAmts, List.map_cons, List.sum_cons]
      rcases List.mem_cons.1 hp with h' | h'
      · have h2 := sumAmts_nonneg (fun r hr => h r (List.mem_cons_of_mem q hr))
        simp only [sumAmts] at h2
        rw [h']
        linarith
      · have h1 := h q (by simp)
        have h2 := ih (fun r hr => h r (List.mem_cons_of_mem q hr)) h'
        simp only [sumAmts] at h2
        linarith

theorem lookupAmt_le_sumAmts {n : String} {l : List (String × ℚ)}
    (h : ∀ p ∈ l, 0 ≤ p.2) : lookupAmt n l ≤ sumAmts l := by
  unfold lookupAmt
  cases hf : l.find? (fun p => p.1 == n) with
  | none =>
      simpa using sumAmts_nonneg h
  | some p => exact amt_le_sumAmts h (List.mem_of_find?_eq_some hf)

theorem paidBy_cons (n : String) (t : String × String × ℚ)
    (ts : List (String × String × ℚ)) :
    paidBy n (t :: ts) = (if t.1 = n then t.2.2 else 0) + paidBy n ts := by
  by_cases h : t.1 = n
  · simp [paidBy, List.filter_cons, h]
  · simp [paidBy, List.filter_cons, h]

theorem recvBy_cons (n : String) (t : String × String × ℚ)
    (ts : List (String × String × ℚ)) :
    recvBy n (t :: ts) = (if t.2.1 = n then t.2.2 else 0) + recvBy n ts := by
  by_cases h : t.2.1 = n
  · simp [recvBy, List.filter_cons, h]
  · simp [recvBy, List.filter_cons, h]

theorem paidBy_nil (n : String) : paidBy n [] = 0 := rfl

theorem recvBy_nil (n : String) : recvBy n [] = 0 := rfl

theorem paidBy_eq_zero {n : String} {ts : List (String × String × ℚ)}
    (h : ∀ t ∈ ts, t.1 ≠ n) : paidBy n ts = 0 := by
  induction ts with
  | nil => rfl
  | cons t ts ih =>
      rw [paidBy_cons, if_neg (h t (by simp)), ih (fun u hu => h u (by simp [hu]))]
      ring

theorem recvBy_eq_zero {n : String} {ts : List (String × String × ℚ)}
    (h : ∀ t ∈ ts, t.2.1 ≠ n) : recvBy n ts = 0 := by
  induction ts with
  | nil => rfl
  | cons t ts ih =>
      rw [recvBy_cons, if_neg (h t (by simp)), ih (fun u hu => h u (by simp [hu]))]
      ring

theorem sumAmts_perm {l₁ l₂ : List (String × ℚ)} (h : l₁.Perm l₂) :
    sumAmts l₁ = sumAmts l₂ := by
  have := (h.map (fun p : String × ℚ => p.2)).sum_eq
  simpa [sumAmts] using this

theorem sumAmts_cons (p : String × ℚ) (l : List (String × ℚ)) :
    sumAmts (p :: l) = p.2 + sumAmts l := by
  simp [sumAmts]

theorem settleLoop_succ (fuel : ℕ) (d : String × ℚ) (D : List (String × ℚ))
    (c : String × ℚ) (C : List (String × ℚ)) :
    settleLoop (fuel + 1) (d :: D) (c :: C) =
      match settleLoop fuel (stepNewD d c D) (stepNewC d c C) with
      | none => none
      | some (txs, De, Ce) =>
          some (if 0 < stepAmount d c then (d.1, c.1, stepAmount d c) :: txs
                else txs, De, Ce) := rfl

theorem settleLoop_nil_left (fuel : ℕ) (C : List (String × ℚ)) :
    settleLoop fuel [] C = some ([], [], C) := by
  cases C <;> cases fuel <;> rfl

theorem settleLoop_nil_right (fuel : ℕ) (d : String × ℚ) (D : List (String × ℚ)) :
    settleLoop fuel (d :: D) [] = some ([], d :: D, []) := by
  cases fuel <;> rfl

/-- When the debtor's need is the smaller one, the debtor is always retired:
its remainder re-rounds to exactly zero (`round2_sub_round2`). -/
theorem stepNewD_of_le {d c : String × ℚ} (h : d.2 ≤ c.2) (D : List (String × ℚ)) :
    stepNewD d c D = D := by
  unfold stepNewD stepAmount
  rw [min_eq_left h, round2_sub_round2]
  rw [if_pos (by norm_num : (0:ℚ) < 1/100)]

/-- When the creditor's need is the smaller one, the creditor is retired. -/
theorem stepNewC_of_le {d c : String × ℚ} (h : c.2 ≤ d.2) (C : List (String × ℚ)) :
    stepNewC d c C = C := by
  unfold stepNewC stepAmount
  rw [min_eq_right h, round2_sub_round2]
  rw [if_pos (by norm_num : (0:ℚ) < 1/100)]

theorem stepAmount_cent {d c : String × ℚ} (hd : IsCent d.2) (hc : IsCent c.2) :
    stepAmount d c = min d.2 c.2 := (hd.min hc).round2_eq

theorem stepNewC_cent_of_le {d c : String × ℚ} (hd : IsCent d.2) (hc : IsCent c.2)
    (h : d.2 ≤ c.2) (C : List (String × ℚ)) :
    stepNewC d c C = if c.2 - d.2 < 1/100 then C else (c.1, c.2 - d.2) :: C := by
  unfold stepNewC
  rw [stepAmount_cent hd hc, min_eq_left h, (hc.sub hd).round2_eq]

theorem stepNewD_cent_of_lt {d c : String × ℚ} (hd : IsCent d.2) (hc : IsCent c.2)
    (h : c.2 < d.2) (D : List (String × ℚ)) :
    stepNewD d c D = (d.1, d.2 - c.2) :: D := by
  unfold stepNewD
  rw [stepAmount_cent hd hc, min_eq_right (le_of_lt h), (hd.sub hc).round2_eq]
  have hne : ¬ d.2 - c.2 < 1/100 := by
    intro hlt
    have h0 : d.2 - c.2 = 0 :=
      (hd.sub hc).eq_zero_of_lt (by linarith) hlt
    linarith
  rw [if_neg hne]

theorem stepNewD_length (d c : String × ℚ) (D : List (String × ℚ)) :
    (stepNewD d c D).length ≤ D.length + 1 := by
  unfold stepNewD
  split
  · omega
  · simp

theorem stepNewC_length (d c : String × ℚ) (C : List (String × ℚ)) :
    (stepNewC d c C).length ≤ C.length + 1 := by
  unfold stepNewC
  split
  · omega
  · simp

/-! ### Termination: the fuel `|D| + |C|` always suffices -/

/-- Each iteration of the sweep retires the side holding the minimum (its
remainder re-rounds to zero), so the loop performs at most `|D| + |C|`
iterations and the fuel chosen in `settle_debts` never runs out.  This holds
for arbitrary rational inputs, not only cent multiples. -/
theorem settleLoop_isSome :
    ∀ (fuel : ℕ) (D C : List (String × ℚ)), D.length + C.length ≤ fuel →
      (settleLoop fuel D C).isSome := by
  intro fuel
  induction fuel with
  | zero =>
      intro D C hlen
      have hD : D = [] := by
        cases D with
        | nil => rfl
        | cons d D' => simp at hlen
      subst hD
      rw [settleLoop_nil_left]
      rfl
  | succ n ih =>
      intro D C hlen
      cases D with
      | nil => rw [settleLoop_nil_left]; rfl
      | cons d D' =>
          cases C with
          | nil => rw [settleLoop_nil_right]; rfl
          | cons c C' =>
              rw [settleLoop_succ]
              have hrec : (settleLoop n (stepNewD d c D') (stepNewC d c C')).isSome := by
                apply ih
                simp only [List.length_cons] at hlen
                rcases le_total d.2 c.2 with hdc | hdc
                · rw [stepNewD_of_le hdc]
                  have := stepNewC_length d c C'
                  omega
                · rw [stepNewC_of_le hdc]
                  have := stepNewD_length d c D'
                  omega
              rcases Option.isSome_iff_exists.1 hrec with ⟨r, hr⟩
              rcases r with ⟨txs, De, Ce⟩
              rw [hr]
              rfl

/-! ### The loop invariant: per-name accounting of the sweep -/

theorem settlePost_nilD (C : List (String × ℚ))
    (hC : ∀ p ∈ C, 1/100 ≤ p.2) (hnd : (C.map Prod.fst).Nodup) :
    SettlePost [] C [] [] C where
  exhausted := Or.inl rfl
  amtsDe := by simp
  amtsCe := hC
  sufDe := List.nil_suffix
  sufCe := List.suffix_refl _
  txMem := by simp
  paid := by simp
  recv := fun p hp => by
    rw [recvBy_nil, lookupAmt_of_mem hnd hp]
    ring
  sums := by simp

theorem settlePost_nilC (D : List (String × ℚ))
    (hD : ∀ p ∈ D, 1/100 ≤ p.2) (hnd : (D.map Prod.fst).Nodup) :
    SettlePost D [] [] D [] where
  exhausted := Or.inr rfl
  amtsDe := hD
  amtsCe := by simp
  sufDe := List.suffix_refl _
  sufCe := List.nil_suffix
  txMem := by simp
  paid := fun p hp => by
    rw [paidBy_nil, lookupAmt_of_mem hnd hp]
    ring
  recv := by simp
  sums := by simp

/-- Main loop invariant.  When every entry is a cent multiple of at least
one cent and all names across both lists are distinct, a successful sweep
satisfies `SettlePost`. -/
theorem settleLoop_post :
    ∀ (fuel : ℕ) (D C : List (String × ℚ)) txs De Ce,
      settleLoop fuel D C = some (txs, De, Ce) →
      (∀ p ∈ D, IsCent p.2) → (∀ p ∈ D, 1/100 ≤ p.2) →
      (∀ p ∈ C, IsCent p.2) → (∀ p ∈ C, 1/100 ≤ p.2) →
      ((D.map Prod.fst ++ C.map Prod.fst)).Nodup →
      SettlePost D C txs De Ce := by
  intro fuel
  induction fuel with
  | zero =>
      intro D C txs De Ce h hDc hDa hCc hCa hnd
      cases D with
      | nil =>
          rw [settleLoop_nil_left] at h
          simp only [Option.some_inj, Prod.mk.injEq] at h
          obtain ⟨h1, h2, h3⟩ := h
          subst h1; subst h2; subst h3
          exact settlePost_nilD C hCa ((List.nodup_append.1 hnd).2.1)
      | cons d D' =>
          cases C with
          | nil =>
              rw [settleLoop_nil_right] at h
              simp only [Option.some_inj, Prod.mk.injEq] at h
              obtain ⟨h1, h2, h3⟩ := h
              subst h1; subst h2; subst h3
              exact settlePost_nilC (d :: D') hDa ((List.nodup_append.1 hnd).1)
          | cons c C' =>
              exact absurd h (by exact fun hc => Option.noConfusion hc)
  | succ n ih =>
      intro D C txs De Ce h hDc hDa hCc hCa hnd
      cases D with
      | nil =>
          rw [settleLoop_nil_left] at h
          simp only [Option.some_inj, Prod.mk.injEq] at h
          obtain ⟨h1, h2, h3⟩ := h
          subst h1; subst h2; subst h3
          exact settlePost_nilD C hCa ((List.nodup_append.1 hnd).2.1)
      | cons d D' =>
          cases C with
          | nil =>
              rw [settleLoop_nil_right] at h
              simp only [Option.some_inj, Prod.mk.injEq] at h
              obtain ⟨h1, h2, h3⟩ := h
              subst h1; subst h2; subst h3
              exact settlePost_nilC (d :: D') hDa ((List.nodup_append.1 hnd).1)
          | cons c C' =>
              -- head facts
              have hd2c : IsCent d.2 := hDc d (by simp)
              have hd2a : 1/100 ≤ d.2 := hDa d (by simp)
              have hc2c : IsCent c.2 := hCc c (by simp)
              have hc2a : 1/100 ≤ c.2 := hCa c (by simp)
              have hamt : stepAmount d c = min d.2 c.2 := stepAmount_cent hd2c hc2c
              have hpos : 0 < stepAmount d c := by
                rw [hamt]
                exact lt_of_lt_of_le (by norm_num) (le_min hd2a hc2a)
              -- name disjointness facts
              have hndparts := List.nodup_append.1 hnd
              have hndD : ((d :: D').map Prod.fst).Nodup := hndparts.1
              have hndC : ((c :: C').map Prod.fst).Nodup := hndparts.2.1
              have hdisj : ((d :: D').map Prod.fst).Disjoint ((c :: C').map Prod.fst) :=
                hndparts.2.2
              rw [List.map_cons] at hndD hndC
              have hdD' : d.1 ∉ D'.map Prod.fst := (List.nodup_cons.1 hndD).1
              have hcC' : c.1 ∉ C'.map Prod.fst := (List.nodup_cons.1 hndC).1
              -- analyze the recursive call
              cases hrec : settleLoop n (stepNewD d c D') (stepNewC d c C') with
              | none =>
                  rw [settleLoop_succ, hrec] at h
                  exact absurd h (by exact fun hc => Option.noConfusion hc)
              | some r =>
                  obtain ⟨rest, De', Ce'⟩ := r
                  have hval : some ((d.1, c.1, stepAmount d c) :: rest, De', Ce') =
                      some (txs, De, Ce) := by
                    rw [← h, settleLoop_succ, hrec]
                    show some ((d.1, c.1, stepAmount d c) :: rest, De', Ce') =
                      some (if 0 < stepAmount d c then
                              (d.1, c.1, stepAmount d c) :: rest else rest, De', Ce')
                    rw [if_pos hpos]
                  simp only [Option.some_inj, Prod.mk.injEq] at hval
                  obtain ⟨htxs, hDe, hCe⟩ := hval
                  subst htxs
                  rw [hDe, hCe] at hrec
                  rcases le_or_lt d.2 c.2 with hdc | hdc
                  · -- the debtor is retired
                    have hND : stepNewD d c D' = D' := stepNewD_of_le hdc D'
                    have hamtd : stepAmount d c = d.2 := by rw [hamt, min_eq_left hdc]
                    by_cases hclose : c.2 - d.2 < 1/100
                    · -- amounts tie: the creditor is retired too
                      have hceq : c.2 = d.2 := by
                        have h0 : c.2 - d.2 = 0 :=
                          (hc2c.sub hd2c).eq_zero_of_lt (by linarith) hclose
                        linarith
                      have hNC : stepNewC d c C' = C' := by
                        rw [stepNewC_cent_of_le hd2c hc2c hdc C', if_pos hclose]
                      rw [hND, hNC] at hrec
                      have hsub : List.Sublist (D'.map Prod.fst ++ C'.map Prod.fst)
                          ((d :: D').map Prod.fst ++ (c :: C').map Prod.fst) := by
                        simp only [List.map_cons]
                        exact (List.sublist_cons_self _ _).append (List.sublist_cons_self _ _)
                      have post := ih D' C' rest De Ce hrec
                        (fun p hp => hDc p (by simp [hp]))
                        (fun p hp => hDa p (by simp [hp]))
                        (fun p hp => hCc p (by simp [hp]))
                        (fun p hp => hCa p (by simp [hp]))
                        (hnd.sublist hsub)
                      refine ⟨post.exhausted, post.amtsDe, post.amtsCe, ?_, ?_, ?_, ?_, ?_, ?_⟩
                      · simp only [List.map_cons]
                        exact post.sufDe.trans (List.suffix_cons d.1 _)
                      · simp only [List.map_cons]
                        exact post.sufCe.trans (List.suffix_cons c.1 _)
                      · intro t ht
                        rcases List.mem_cons.1 ht with ht' | ht'
                        · rw [ht']
                          exact ⟨by simp, by simp⟩
                        · have := post.txMem t ht'
                          constructor
                          · simp only [List.map_cons]
                            exact List.mem_cons_of_mem _ this.1
                          · simp only [List.map_cons]
                            exact List.mem_cons_of_mem _ this.2
                      · intro p hp
                        rcases List.mem_cons.1 hp with hp' | hp'
                        · rw [hp']
                          rw [paidBy_cons, if_pos rfl]
                          have hrest0 : paidBy d.1 rest = 0 := by
                            apply paidBy_eq_zero
                            intro t ht hcontra
                            exact hdD' (hcontra ▸ (post.txMem t ht).1)
                          have hlk0 : lookupAmt d.1 De = 0 := by
                            apply lookupAmt_not_mem
                            intro hc0
                            exact hdD' (post.sufDe.subset hc0)
                          rw [hrest0, hlk0, hamtd]
                          ring
                        · have hne : d.1 ≠ p.1 := by
                            intro heq
                            exact hdD' (heq ▸ List.mem_map.2 ⟨p, hp', rfl⟩)
                          rw [paidBy_cons, if_neg hne, zero_add]
                          exact post.paid p hp'
                      · intro p hp
                        rcases List.mem_cons.1 hp with hp' | hp'
                        · rw [hp']
                          rw [recvBy_cons, if_pos rfl]
                          have hrest0 : recvBy c.1 rest = 0 := by
                            apply recvBy_eq_zero
                            intro t ht hcontra
                            exact hcC' (hcontra ▸ (post.txMem t ht).2)
                          have hlk0 : lookupAmt c.1 Ce = 0 := by
                            apply lookupAmt_not_mem
                            intro hc0
                            exact hcC' (post.sufCe.subset hc0)
                          rw [hrest0, hlk0, hamtd, hceq]
                          ring
                        · have hne : c.1 ≠ p.1 := by
                            intro heq
                            exact hcC' (heq ▸ List.mem_map.2 ⟨p, hp', rfl⟩)
                          rw [recvBy_cons, if_neg hne, zero_add]
                          exact post.recv p hp'
                      · have := post.sums
                        rw [sumAmts_cons, sumAmts_cons]
                        rw [hceq]
                        linarith
                    · -- the creditor keeps a positive remainder
                      have hNC : stepNewC d c C' = (c.1, c.2 - d.2) :: C' := by
                        rw [stepNewC_cent_of_le hd2c hc2c hdc C', if_neg hclose]
                      rw [hND, hNC] at hrec
                      have hsub : List.Sublist
                          (D'.map Prod.fst ++ ((c.1, c.2 - d.2) :: C').map Prod.fst)
                          ((d :: D').map Prod.fst ++ (c :: C').map Prod.fst) := by
                        simp only [List.map_cons]
                        exact (List.sublist_cons_self _ _).append (List.Sublist.refl _)
                      have post := ih D' ((c.1, c.2 - d.2) :: C') rest De Ce hrec
                        (fun p hp => hDc p (by simp [hp]))
                        (fun p hp => hDa p (by simp [hp]))
                        (by
                          intro p hp
                          rcases List.mem_cons.1 hp with hp' | hp'
                          · rw [hp']
                            exact hc2c.sub hd2c
                          · exact hCc p (by simp [hp']))
                        (by
                          intro p hp
                          rcases List.mem_cons.1 hp with hp' | hp'
                          · rw [hp']
                            exact not_lt.1 hclose
                          · exact hCa p (by simp [hp']))
                        (hnd.sublist hsub)
                      refine ⟨post.exhausted, post.amtsDe, post.amtsCe, ?_, ?_, ?_, ?_, ?_, ?_⟩
                      · simp only [List.map_cons]
                        exact post.sufDe.trans (List.suffix_cons d.1 _)
                      · have := post.sufCe
                        simpa only [List.map_cons] using this
                      · intro t ht
                        rcases List.mem_cons.1 ht with ht' | ht'
                        · rw [ht']
                          exact ⟨by simp, by simp⟩
                        · have := post.txMem t ht'
                          constructor
                          · simp only [List.map_cons]
                            exact List.mem_cons_of_mem _ this.1
                          · simpa only [List.map_cons] using this.2
                      · intro p hp
                        rcases List.mem_cons.1 hp with hp' | hp'
                        · rw [hp']
                          rw [paidBy_cons, if_pos rfl]
                          have hrest0 : paidBy d.1 rest = 0 := by
                            apply paidBy_eq_zero
                            intro t ht hcontra
                            exact hdD' (hcontra ▸ (post.txMem t ht).1)
                          have hlk0 : lookupAmt d.1 De = 0 := by
                            apply lookupAmt_not_mem
                            intro hc0
                            exact hdD' (post.sufDe.subset hc0)
                          rw [hrest0, hlk0, hamtd]
                          ring
                        · have hne : d.1 ≠ p.1 := by
                            intro heq
                            exact hdD' (heq ▸ List.mem_map.2 ⟨p, hp', rfl⟩)
                          rw [paidBy_cons, if_neg hne, zero_add]
                          exact post.paid p hp'
                      · intro p hp
                        rcases List.mem_cons.1 hp with hp' | hp'
                        · rw [hp']
                          rw [recvBy_cons, if_pos rfl]
                          have hchead : recvBy c.1 rest = (c.2 - d.2) - lookupAmt c.1 Ce :=
                            post.recv (c.1, c.2 - d.2) (by simp)
                          rw [hamtd, hchead]
                          ring
                        · have hne : c.1 ≠ p.1 := by
                            intro heq
                            exact hcC' (heq ▸ List.mem_map.2 ⟨p, hp', rfl⟩)
                          rw [recvBy_cons, if_neg hne, zero_add]
                          exact post.recv p (List.mem_cons_of_mem _ hp')
                      · have hsums : sumAmts D' - sumAmts De =
                            c.2 - d.2 + sumAmts C' - sumAmts Ce := by
                          have := post.sums
                          rw [sumAmts_cons] at this
                          have hproj : ((c.1, c.2 - d.2) : String × ℚ).2 = c.2 - d.2 := rfl
                          rw [hproj] at this
                          linarith
                        rw [sumAmts_cons, sumAmts_cons]
                        linarith
                  · -- the creditor is retired, debtor keeps a positive remainder
                    have hNC : stepNewC d c C' = C' := stepNewC_of_le (le_of_lt hdc) C'
                    have hND : stepNewD d c D' = (d.1, d.2 - c.2) :: D' :=
                      stepNewD_cent_of_lt hd2c hc2c hdc D'
                    have hamtc : stepAmount d c = c.2 := by
                      rw [hamt, min_eq_right (le_of_lt hdc)]
                    have hdfar : ¬ d.2 - c.2 < 1/100 := by
                      intro hlt
                      have h0 : d.2 - c.2 = 0 :=
                        (hd2c.sub hc2c).eq_zero_of_lt (by linarith) hlt
                      linarith
                    rw [hND, hNC] at hrec
                    have hsub : List.Sublist
                        (((d.1, d.2 - c.2) :: D').map Prod.fst ++ C'.map Prod.fst)
                        ((d :: D').map Prod.fst ++ (c :: C').map Prod.fst) := by
                      simp only [List.map_cons]
                      exact (List.Sublist.refl _).append (List.sublist_cons_self _ _)
                    have post := ih ((d.1, d.2 - c.2) :: D') C' rest De Ce hrec
                      (by
                        intro p hp
                        rcases List.mem_cons.1 hp with hp' | hp'
                        · rw [hp']
                          exact hd2c.sub hc2c
                        · exact hDc p (by simp [hp']))
                      (by
                        intro p hp
                        rcases List.mem_cons.1 hp with hp' | hp'
                        · rw [hp']
                          exact not_lt.1 hdfar
                        · exact hDa p (by simp [hp']))
                      (fun p hp => hCc p (by simp [hp]))
                      (fun p hp => hCa p (by simp [hp]))
                      (hnd.sublist hsub)
                    refine ⟨post.exhausted, post.amtsDe, post.amtsCe, ?_, ?_, ?_, ?_, ?_, ?_⟩
                    · have := post.sufDe
                      simpa only [List.map_cons] using this
                    · simp only [List.map_cons]
                      exact post.sufCe.trans (List.suffix_cons c.1 _)
                    · intro t ht
                      rcases List.mem_cons.1 ht with ht' | ht'
                      · rw [ht']
                        exact ⟨by simp, by simp⟩
                      · have := post.txMem t ht'
                        constructor
                        · simpa only [List.map_cons] using this.1
                        · simp only [List.map_cons]
                          exact List.mem_cons_of_mem _ this.2
                    · intro p hp
                      rcases List.mem_cons.1 hp with hp' | hp'
                      · rw [hp']
                        rw [paidBy_cons, if_pos rfl]
                        have hdhead : paidBy d.1 rest = (d.2 - c.2) - lookupAmt d.1 De :=
                          post.paid (d.1, d.2 - c.2) (by simp)
                        rw [hamtc, hdhead]
                        ring
                      · have hne : d.1 ≠ p.1 := by
                          intro heq
                          exact hdD' (heq ▸ List.mem_map.2 ⟨p, hp', rfl⟩)
                        rw [paidBy_cons, if_neg hne, zero_add]
                        exact post.paid p (List.mem_cons_of_mem _ hp')
                    · intro p hp
                      rcases List.mem_cons.1 hp with hp' | hp'
                      · rw [hp']
                        rw [recvBy_cons, if_pos rfl]
                        have hrest0 : recvBy c.1 rest = 0 := by
                          apply recvBy_eq_zero
                          intro t ht hcontra
                          exact hcC' (hcontra ▸ (post.txMem t ht).2)
                        have hlk0 : lookupAmt c.1 Ce = 0 := by
                          apply lookupAmt_not_mem
                          intro hc0
                          exact hcC' (post.sufCe.subset hc0)
                        rw [hrest0, hlk0, hamtc]
                        ring
                      · have hne : c.1 ≠ p.1 := by
                          intro heq
                          exact hcC' (heq ▸ List.mem_map.2 ⟨p, hp', rfl⟩)
                        rw [recvBy_cons, if_neg hne, zero_add]
                        exact post.recv p hp'
                    · have hsums : sumAmts D' - sumAmts De =
                          sumAmts C' - sumAmts Ce - (d.2 - c.2) := by
                        have := post.sums
                        rw [sumAmts_cons] at this
                        have hproj : ((d.1, d.2 - c.2) : String × ℚ).2 = d.2 - c.2 := rfl
                        rw [hproj] at this
                        linarith
                      rw [sumAmts_cons, sumAmts_cons]
                      linarith

theorem lookupAmt_nil (n : String) : lookupAmt n [] = 0 := rfl

theorem stepNewD_names_subset (d c : String × ℚ) (D : List (String × ℚ)) :
    ((stepNewD d c D).map Prod.fst) ⊆ d.1 :: D.map Prod.fst := by
  unfold stepNewD
  split
  · exact fun x hx => List.mem_cons_of_mem _ hx
  · intro x hx
    simpa using hx

theorem stepNewC_names_subset (d c : String × ℚ) (C : List (String × ℚ)) :
    ((stepNewC d c C).map Prod.fst) ⊆ c.1 :: C.map Prod.fst := by
  unfold stepNewC
  split
  · exact fun x hx => List.mem_cons_of_mem _ hx
  · intro x hx
    simpa using hx

/-- Every transaction the sweep emits has a positive amount — the `if
amount > 0` guard of line 119 is what is appended — and its payer name comes
from the debtor list while its receiver name comes from the creditor list.
This needs no arithmetic assumption on the inputs. -/
theorem settleLoop_txs :
    ∀ (fuel : ℕ) (D C : List (String × ℚ)) txs De Ce,
      settleLoop fuel D C = some (txs, De, Ce) →
      ∀ t ∈ txs, 0 < t.2.2 ∧ t.1 ∈ D.map Prod.fst ∧ t.2.1 ∈ C.map Prod.fst := by
  intro fuel
  induction fuel with
  | zero =>
      intro D C txs De Ce h t ht
      cases D with
      | nil =>
          rw [settleLoop_nil_left] at h
          simp only [Option.some_inj, Prod.mk.injEq] at h
          rw [← h.1] at ht
          simp at ht
      | cons d D' =>
          cases C with
          | nil =>
              rw [settleLoop_nil_right] at h
              simp only [Option.some_inj, Prod.mk.injEq] at h
              rw [← h.1] at ht
              simp at ht
          | cons c C' => exact absurd h (by exact fun hc => Option.noConfusion hc)
  | succ n ih =>
      intro D C txs De Ce h t ht
      cases D with
      | nil =>
          rw [settleLoop_nil_left] at h
          simp only [Option.some_inj, Prod.mk.injEq] at h
          rw [← h.1] at ht
          simp at ht
      | cons d D' =>
          cases C with
          | nil =>
              rw [settleLoop_nil_right] at h
              simp only [Option.some_inj, Prod.mk.injEq] at h
              rw [← h.1] at ht
              simp at ht
          | cons c C' =>
              cases hrec : settleLoop n (stepNewD d c D') (stepNewC d c C') with
              | none =>
                  rw [settleLoop_succ, hrec] at h
                  exact absurd h (by exact fun hc => Option.noConfusion hc)
              | some r =>
                  obtain ⟨rest, De', Ce'⟩ := r
                  have hrest : ∀ u ∈ rest, 0 < u.2.2 ∧
                      u.1 ∈ (stepNewD d c D').map Prod.fst ∧
                      u.2.1 ∈ (stepNewC d c C').map Prod.fst :=
                    ih _ _ rest De' Ce' hrec
                  have hlift : ∀ u ∈ rest, 0 < u.2.2 ∧
                      u.1 ∈ (d :: D').map Prod.fst ∧ u.2.1 ∈ (c :: C').map Prod.fst := by
                    intro u hu
                    refine ⟨(hrest u hu).1, ?_, ?_⟩
                    · have := stepNewD_names_subset d c D' (hrest u hu).2.1
                      simpa using this
                    · have := stepNewC_names_subset d c C' (hrest u hu).2.2
                      simpa using this
                  by_cases hpos : 0 < stepAmount d c
                  · have hval : some ((d.1, c.1, stepAmount d c) :: rest, De', Ce') =
                        some (txs, De, Ce) := by
                      rw [← h, settleLoop_succ, hrec]
                      show some ((d.1, c.1, stepAmount d c) :: rest, De', Ce') =
                        some (if 0 < stepAmount d c then
                                (d.1, c.1, stepAmount d c) :: rest else rest, De', Ce')
                      rw [if_pos hpos]
                    simp only [Option.some_inj, Prod.mk.injEq] at hval
                    rw [← hval.1] at ht
                    rcases List.mem_cons.1 ht with ht' | ht'
                    · rw [ht']
                      exact ⟨hpos, by simp, by simp⟩
                    · exact hlift t ht'
                  · have hval : some (rest, De', Ce') = some (txs, De, Ce) := by
                      rw [← h, settleLoop_succ, hrec]
                      show some (rest, De', Ce') =
                        some (if 0 < stepAmount d c then
                                (d.1, c.1, stepAmount d c) :: rest else rest, De', Ce')
                      rw [if_neg hpos]
                    simp only [Option.some_inj, Prod.mk.injEq] at hval
                    rw [← hval.1] at ht
                    exact hlift t ht

/-- Each iteration emits at most one transaction and retires at least one
entry, and the loop stops as soon as one side is exhausted, so at most
`|D| + |C| - 1` transactions are emitted (truncated subtraction). -/
theorem settleLoop_txs_length :
    ∀ (fuel : ℕ) (D C : List (String × ℚ)) txs De Ce,
      settleLoop fuel D C = some (txs, De, Ce) →
      txs.length ≤ D.length + C.length - 1 := by
  intro fuel
  induction fuel with
  | zero =>
      intro D C txs De Ce h
      cases D with
      | nil =>
          rw [settleLoop_nil_left] at h
          simp only [Option.some_inj, Prod.mk.injEq] at h
          rw [← h.1]
          simp
      | cons d D' =>
          cases C with
          | nil =>
              rw [settleLoop_nil_right] at h
              simp only [Option.some_inj, Prod.mk.injEq] at h
              rw [← h.1]
              simp
          | cons c C' => exact absurd h (by exact fun hc => Option.noConfusion hc)
  | succ n ih =>
      intro D C txs De Ce h
      cases D with
      | nil =>
          rw [settleLoop_nil_left] at h
          simp only [Option.some_inj, Prod.mk.injEq] at h
          rw [← h.1]
          simp
      | cons d D' =>
          cases C with
          | nil =>
              rw [settleLoop_nil_right] at h
              simp only [Option.some_inj, Prod.mk.injEq] at h
              rw [← h.1]
              simp
          | cons c C' =>
              cases hrec : settleLoop n (stepNewD d c D') (stepNewC d c C') with
              | none =>
                  rw [settleLoop_succ, hrec] at h
                  exact absurd h (by exact fun hc => Option.noConfusion hc)
              | some r =>
                  obtain ⟨rest, De', Ce'⟩ := r
                  have hrest := ih _ _ rest De' Ce' hrec
                  have hprog : (stepNewD d c D').length + (stepNewC d c C').length ≤
                      D'.length + C'.length + 1 := by
                    rcases le_total d.2 c.2 with hdc | hdc
                    · rw [stepNewD_of_le hdc]
                      have := stepNewC_length d c C'
                      omega
                    · rw [stepNewC_of_le hdc]
                      have := stepNewD_length d c D'
                      omega
                  have hlen : txs.length ≤ rest.length + 1 := by
                    by_cases hpos : 0 < stepAmount d c
                    · have hval : some ((d.1, c.1, stepAmount d c) :: rest, De', Ce') =
                          some (txs, De, Ce) := by
                        rw [← h, settleLoop_succ, hrec]
                        show some ((d.1, c.1, stepAmount d c) :: rest, De', Ce') =
                          some (if 0 < stepAmount d c then
                                  (d.1, c.1, stepAmount d c) :: rest else rest, De', Ce')
                        rw [if_pos hpos]
                      simp only [Option.some_inj, Prod.mk.injEq] at hval
                      rw [← hval.1]
                      simp
                    · have hval : some (rest, De', Ce') = some (txs, De, Ce) := by
                        rw [← h, settleLoop_succ, hrec]
                        show some (rest, De', Ce') =
                          some (if 0 < stepAmount d c then
                                  (d.1, c.1, stepAmount d c) :: rest else rest, De', Ce')
                        rw [if_neg hpos]
                      simp only [Option.some_inj, Prod.mk.injEq] at hval
                      rw [← hval.1]
                      omega
                  simp only [List.length_cons]
                  omega

/-! ### `settle_debts` level facts -/

theorem settle_debts_some_inv (bal : List (String × ℚ))
    (txs : List (String × String × ℚ)) (h : settle_debts bal = some txs) :
    ∃ De Ce, settleLoop
        ((sortDesc (debtorsOf bal)).length + (sortDesc (creditorsOf bal)).length)
        (sortDesc (debtorsOf bal)) (sortDesc (creditorsOf bal)) =
      some (txs, De, Ce) := by
  simp only [settle_debts] at h
  rcases Option.map_eq_some'.1 h with ⟨r, hr, hfst⟩
  obtain ⟨txs', De, Ce⟩ := r
  refine ⟨De, Ce, ?_⟩
  rw [hr]
  have : txs' = txs := hfst
  rw [this]

theorem IsCent.of_neg {x : ℚ} (h : IsCent (-x)) : IsCent x := by
  have := h.neg
  rwa [neg_neg] at this

/-- The sorted debtor and creditor name lists keep the distinctness of the
balance-dict keys, jointly. -/
theorem partition_names_nodup (bal : List (String × ℚ))
    (hnd : (bal.map Prod.fst).Nodup) :
    ((sortDesc (debtorsOf bal)).map Prod.fst ++
      (sortDesc (creditorsOf bal)).map Prod.fst).Nodup := by
  have hD := (sortDesc_perm (debtorsOf bal)).map Prod.fst
  have hC := (sortDesc_perm (creditorsOf bal)).map Prod.fst
  rw [(hD.append hC).nodup_iff]
  refine List.nodup_append.2 ⟨hnd.sublist (debtorsOf_names_sublist bal),
    hnd.sublist (creditorsOf_names_sublist bal), ?_⟩
  intro a ha hb
  exact debtor_creditor_disjoint hnd ha hb

theorem compute_balances_keys_nodup (names : List String) (amounts : List ℚ) :
    (((compute_balances names amounts).2.2).map Prod.fst).Nodup :=
  dictOfPairs_nodup _

theorem compute_balances_cent (names : List String) (amounts : List ℚ) :
    ∀ p ∈ (compute_balances names amounts).2.2, IsCent p.2 := by
  intro p hp
  rcases List.mem_map.1 (dictOfPairs_mem hp) with ⟨q, _, hq⟩
  rw [← hq]
  exact isCent_round2 _

/-- C5: `settle_debts` is total: on every balance mapping — empty or not,
zero-sum or not — the two-pointer sweep finishes within its fuel and a
transaction list (possibly empty) is returned. -/
theorem settle_debts_total (bal : List (String × ℚ)) :
    (settle_debts bal).isSome := by
  have h := settleLoop_isSome
    ((sortDesc (debtorsOf bal)).length + (sortDesc (creditorsOf bal)).length)
    (sortDesc (debtorsOf bal)) (sortDesc (creditorsOf bal)) (le_refl _)
  rcases Option.isSome_iff_exists.1 h with ⟨r, hr⟩
  simp only [settle_debts, hr, Option.map_some']
  rfl

/-- C3: every transaction returned by `settle_debts` on a mapping (distinct
keys) has a strictly positive amount, and never has payer equal to
receiver. -/
theorem settle_debts_txs_pos_ne (bal : List (String × ℚ))
    (hnd : (bal.map Prod.fst).Nodup)
    (txs : List (String × String × ℚ)) (h : settle_debts bal = some txs) :
    ∀ t ∈ txs, 0 < t.2.2 ∧ t.1 ≠ t.2.1 := by
  obtain ⟨De, Ce, hsl⟩ := settle_debts_some_inv bal txs h
  intro t ht
  have hprop := settleLoop_txs _ _ _ _ _ _ hsl t ht
  refine ⟨hprop.1, ?_⟩
  intro heq
  have h1 : t.1 ∈ (debtorsOf bal).map Prod.fst :=
    ((sortDesc_perm (debtorsOf bal)).map Prod.fst).subset hprop.2.1
  have h2 : t.2.1 ∈ (creditorsOf bal).map Prod.fst :=
    ((sortDesc_perm (creditorsOf bal)).map Prod.fst).subset hprop.2.2
  exact debtor_creditor_disjoint hnd h1 (heq ▸ h2)

/-- C4 (amended): the number of transactions is at most
`(creditors + debtors) - 1` whenever at least one creditor or debtor
exists, and `0` otherwise — i.e. at most `max (creditors + debtors - 1) 0`
as integers. -/
theorem settle_debts_txs_count (bal : List (String × ℚ))
    (txs : List (String × String × ℚ)) (h : settle_debts bal = some txs) :
    (txs.length : ℤ) ≤
      max (((creditorsOf bal).length : ℤ) + ((debtorsOf bal).length : ℤ) - 1) 0 := by
  obtain ⟨De, Ce, hsl⟩ := settle_debts_some_inv bal txs h
  have hlen := settleLoop_txs_length _ _ _ _ _ _ hsl
  have hD : (sortDesc (debtorsOf bal)).length = (debtorsOf bal).length :=
    (sortDesc_perm _).length_eq
  have hC : (sortDesc (creditorsOf bal)).length = (creditorsOf bal).length :=
    (sortDesc_perm _).length_eq
  rw [hD, hC] at hlen
  rcases le_total (((creditorsOf bal).length : ℤ) + ((debtorsOf bal).length : ℤ) - 1) 0
    with hA | hA
  · rw [max_eq_right hA]
    have : txs.length = 0 := by omega
    simp [this]
  · rw [max_eq_left hA]
    omega

/-- C1 (amended): for equal-length name/amount inputs with non-negative
amounts, provided the total partitioned credit and the total partitioned
debt differ by at most `0.01`, applying all transactions returned by
`settle_debts` (subtracting each amount from the payer's debt and from the
receiver's credit) brings every participant's balance to within `0.01` of
zero. -/
theorem settlement_within_tolerance (names : List String) (amounts : List ℚ)
    (hlen : names.length = amounts.length)
    (hnonneg : ∀ a ∈ amounts, 0 ≤ a)
    (htol : |sumAmts (creditorsOf (compute_balances names amounts).2.2) -
        sumAmts (debtorsOf (compute_balances names amounts).2.2)| ≤ 1/100)
    (txs : List (String × String × ℚ))
    (hset : settle_debts (compute_balances names amounts).2.2 = some txs) :
    ∀ p ∈ (compute_balances names amounts).2.2, |finalBal p txs| ≤ 1/100 := by
  intro p hp
  have hnd : (((compute_balances names amounts).2.2).map Prod.fst).Nodup :=
    compute_balances_keys_nodup names amounts
  have hcent := compute_balances_cent names amounts
  obtain ⟨De, Ce, hsl⟩ := settle_debts_some_inv _ txs hset
  have hDcent : ∀ q ∈ sortDesc (debtorsOf (compute_balances names amounts).2.2),
      IsCent q.2 := by
    intro q hq
    have hq' := (sortDesc_perm _).subset hq
    rcases mem_debtorsOf.1 hq' with ⟨hmem, _⟩
    exact (hcent _ hmem).of_neg
  have hDamt : ∀ q ∈ sortDesc (debtorsOf (compute_balances names amounts).2.2),
      1/100 ≤ q.2 := by
    intro q hq
    have hq' := (sortDesc_perm _).subset hq
    exact le_of_lt (mem_debtorsOf.1 hq').2
  have hCcent : ∀ q ∈ sortDesc (creditorsOf (compute_balances names amounts).2.2),
      IsCent q.2 := by
    intro q hq
    have hq' := (sortDesc_perm _).subset hq
    exact hcent _ (mem_creditorsOf.1 hq').1
  have hCamt : ∀ q ∈ sortDesc (creditorsOf (compute_balances names amounts).2.2),
      1/100 ≤ q.2 := by
    intro q hq
    have hq' := (sortDesc_perm _).subset hq
    exact le_of_lt (mem_creditorsOf.1 hq').2
  have post := settleLoop_post _ _ _ _ _ _ hsl hDcent hDamt hCcent hCamt
    (partition_names_nodup _ hnd)
  have hsumD : sumAmts (sortDesc (debtorsOf (compute_balances names amounts).2.2)) =
      sumAmts (debtorsOf (compute_balances names amounts).2.2) :=
    sumAmts_perm (sortDesc_perm _)
  have hsumC : sumAmts (sortDesc (creditorsOf (compute_balances names amounts).2.2)) =
      sumAmts (creditorsOf (compute_balances names amounts).2.2) :=
    sumAmts_perm (sortDesc_perm _)
  by_cases hgt : 1/100 < p.2
  · -- p is a creditor
    have hpC : p ∈ sortDesc (creditorsOf (compute_balances names amounts).2.2) :=
      ((sortDesc_perm _).mem_iff).2 (mem_creditorsOf.2 ⟨hp, hgt⟩)
    have hrecv := post.recv p hpC
    have hpaid0 : paidBy p.1 txs = 0 := by
      apply paidBy_eq_zero
      intro t ht heq
      have h1 : t.1 ∈ (debtorsOf (compute_balances names amounts).2.2).map Prod.fst :=
        ((sortDesc_perm _).map Prod.fst).subset (post.txMem t ht).1
      have h2 : p.1 ∈ (creditorsOf (compute_balances names amounts).2.2).map Prod.fst :=
        List.mem_map.2 ⟨p, mem_creditorsOf.2 ⟨hp, hgt⟩, rfl⟩
      exact debtor_creditor_disjoint hnd (heq ▸ h1) h2
    have hfin : finalBal p txs = lookupAmt p.1 Ce := by
      unfold finalBal
      rw [hpaid0, hrecv]
      ring
    have hL0 : 0 ≤ lookupAmt p.1 Ce :=
      lookupAmt_nonneg (fun q hq => le_trans (by norm_num) (post.amtsCe q hq))
    have hL1 : lookupAmt p.1 Ce ≤ 1/100 := by
      rcases post.exhausted with hDe | hCe
      · have hsums := post.sums
        rw [hDe] at hsums
        have hCe0 : sumAmts Ce =
            sumAmts (creditorsOf (compute_balances names amounts).2.2) -
            sumAmts (debtorsOf (compute_balances names amounts).2.2) := by
          have hnil : sumAmts ([] : List (String × ℚ)) = 0 := rfl
          rw [hnil] at hsums
          rw [← hsumC, ← hsumD]
          linarith
        have hle : lookupAmt p.1 Ce ≤ sumAmts Ce :=
          lookupAmt_le_sumAmts (fun q hq => le_trans (by norm_num) (post.amtsCe q hq))
        have := le_abs_self (sumAmts (creditorsOf (compute_balances names amounts).2.2) -
          sumAmts (debtorsOf (compute_balances names amounts).2.2))
        linarith
      · rw [hCe, lookupAmt_nil]
        norm_num
    rw [hfin, abs_of_nonneg hL0]
    exact hL1
  · by_cases hlt : p.2 < -(1/100)
    · -- p is a debtor
      have hq : (p.1, -p.2) ∈ debtorsOf (compute_balances names amounts).2.2 := by
        apply mem_debtorsOf.2
        constructor
        · simpa using hp
        · show 1/100 < -p.2
          linarith
      have hqD : (p.1, -p.2) ∈ sortDesc (debtorsOf (compute_balances names amounts).2.2) :=
        ((sortDesc_perm _).mem_iff).2 hq
      have hpaid : paidBy p.1 txs = -p.2 - lookupAmt p.1 De := post.paid (p.1, -p.2) hqD
      have hrecv0 : recvBy p.1 txs = 0 := by
        apply recvBy_eq_zero
        intro t ht heq
        have h1 : t.2.1 ∈ (creditorsOf (compute_balances names amounts).2.2).map Prod.fst :=
          ((sortDesc_perm _).map Prod.fst).subset (post.txMem t ht).2
        have h2 : p.1 ∈ (debtorsOf (compute_balances names amounts).2.2).map Prod.fst :=
          List.mem_map.2 ⟨(p.1, -p.2), hq, rfl⟩
        exact debtor_creditor_disjoint hnd h2 (heq ▸ h1)
      have hfin : finalBal p txs = -(lookupAmt p.1 De) := by
        unfold finalBal
        rw [hpaid, hrecv0]
        ring
      have hL0 : 0 ≤ lookupAmt p.1 De :=
        lookupAmt_nonneg (fun q hq' => le_trans (by norm_num) (post.amtsDe q hq'))
      have hL1 : lookupAmt p.1 De ≤ 1/100 := by
        rcases post.exhausted with hDe | hCe
        · rw [hDe, lookupAmt_nil]
          norm_num
        · have hsums := post.sums
          rw [hCe] at hsums
          have hDe0 : sumAmts De =
              sumAmts (debtorsOf (compute_balances names amounts).2.2) -
              sumAmts (creditorsOf (compute_balances names amounts).2.2) := by
            have hnil : sumAmts ([] : List (String × ℚ)) = 0 := rfl
            rw [hnil] at hsums
            rw [← hsumC, ← hsumD]
            linarith
          have hle : lookupAmt p.1 De ≤ sumAmts De :=
            lookupAmt_le_sumAmts (fun q hq' => le_trans (by norm_num) (post.amtsDe q hq'))
          have := neg_abs_le (sumAmts (creditorsOf (compute_balances names amounts).2.2) -
            sumAmts (debtorsOf (compute_balances names amounts).2.2))
          linarith
      rw [hfin, abs_neg, abs_of_nonneg hL0]
      exact hL1
    · -- p is already within tolerance and never appears in a transaction
      have hpD : p.1 ∉ (debtorsOf (compute_balances names amounts).2.2).map Prod.fst := by
        intro hc
        rcases List.mem_map.1 hc with ⟨q, hq, hq1⟩
        rcases mem_debtorsOf.1 hq with ⟨hmem, hqgt⟩
        have hmem' : (p.1, -q.2) ∈ (compute_balances names amounts).2.2 := by
          rw [← hq1]
          exact hmem
        have : p.2 = -q.2 := nodup_key_val hnd (by simpa using hp) hmem'
        rw [this] at hlt
        push_neg at hlt
        linarith
      have hpC : p.1 ∉ (creditorsOf (compute_balances names amounts).2.2).map Prod.fst := by
        intro hc
        rcases List.mem_map.1 hc with ⟨q, hq, hq1⟩
        rcases mem_creditorsOf.1 hq with ⟨hmem, hqgt⟩
        have hmem' : (p.1, q.2) ∈ (compute_balances names amounts).2.2 := by
          rw [← hq1]
          exact hmem
        have : p.2 = q.2 := nodup_key_val hnd (by simpa using hp) hmem'
        rw [← this] at hqgt
        exact hgt hqgt
      have hpaid0 : paidBy p.1 txs = 0 := by
        apply paidBy_eq_zero
        intro t ht heq
        exact hpD (heq ▸ ((sortDesc_perm _).map Prod.fst).subset (post.txMem t ht).1)
      have hrecv0 : recvBy p.1 txs = 0 := by
        apply recvBy_eq_zero
        intro t ht heq
        exact hpC (heq ▸ ((sortDesc_perm _).map Prod.fst).subset (post.txMem t ht).2)
      have hfin : finalBal p txs = p.2 := by
        unfold finalBal
        rw [hpaid0, hrecv0]
        ring
      rw [hfin]
      rw [abs_le]
      push_neg at hlt
      exact ⟨by linarith, by linarith [not_lt.1 hgt]⟩

/-! ### `compute_balances` facts -/

theorem zip_names_sublist :
    ∀ (ns : List String) (as' : List ℚ),
      ((ns.zip as').map Prod.fst).Sublist ns := by
  intro ns
  induction ns with
  | nil => intro as'; simp
  | cons n ns ih =>
      intro as'
      cases as' with
      | nil => simp
      | cons a as' =>
          simp only [List.zip_cons_cons, List.map_cons]
          exact (ih as').cons₂ n

/-- With distinct names, the balance dict is literally the zipped, rounded
list: no overwriting happens. -/
theorem compute_balances_eq_map (names : List String) (amounts : List ℚ)
    (hnd : names.Nodup) :
    (compute_balances names amounts).2.2 =
      (names.zip amounts).map
        (fun q => (q.1, round2 (q.2 - (compute_balances names amounts).2.1))) := by
  apply dictOfPairs_eq_self
  rw [List.map_map]
  show (((names.zip amounts)).map Prod.fst).Nodup
  exact hnd.sublist (zip_names_sublist names amounts)

theorem sum_map_sub_const (s : ℚ) :
    ∀ l : List (String × ℚ),
      (l.map (fun q => q.2 - s)).sum = (l.map (fun q => q.2)).sum - l.length * s := by
  intro l
  induction l with
  | nil => simp
  | cons q l ih =>
      simp only [List.map_cons, List.sum_cons, List.length_cons, ih]
      push_cast
      ring

/-- Summing rounded values differs from summing the raw values by at most
half a cent per element. -/
theorem round2_sum_bound :
    ∀ xs : List ℚ, |(xs.map round2).sum - xs.sum| ≤ (xs.length : ℚ) * (1/200) := by
  intro xs
  induction xs with
  | nil => simp
  | cons x xs ih =>
      simp only [List.map_cons, List.sum_cons, List.length_cons]
      have h1 := abs_round2_sub x
      have h2 : |round2 x + (xs.map round2).sum - (x + xs.sum)| ≤
          |round2 x - x| + |(xs.map round2).sum - xs.sum| := by
        have : round2 x + (xs.map round2).sum - (x + xs.sum) =
            (round2 x - x) + ((xs.map round2).sum - xs.sum) := by ring
        rw [this]
        exact abs_add _ _
      push_cast
      have := ih
      nlinarith [abs_nonneg ((xs.map round2).sum - xs.sum)]

/-- C2: for equal-length inputs with distinct names, the values of the
balance mapping sum to within `N × 0.01` of zero. -/
theorem balances_sum_within (names : List String) (amounts : List ℚ)
    (hlen : names.length = amounts.length) (hnd : names.Nodup) :
    |sumAmts (compute_balances names amounts).2.2| ≤ (names.length : ℚ) * (1/100) := by
  rw [compute_balances_eq_map names amounts hnd]
  set s := (compute_balances names amounts).2.1 with hs
  set l := names.zip amounts with hl
  have hsum : sumAmts (l.map (fun q => (q.1, round2 (q.2 - s)))) =
      ((l.map (fun q => q.2 - s)).map round2).sum := by
    unfold sumAmts
    rw [List.map_map, List.map_map]
    rfl
  rw [hsum]
  have hlzip : l.length = names.length := by
    rw [hl, List.length_zip, hlen, min_self]
  have hraw : (l.map (fun q => q.2 - s)).sum = 0 := by
    rw [sum_map_sub_const]
    have hsnd : l.map (fun q => q.2) = amounts := by
      rw [hl]
      exact List.map_snd_zip names amounts (le_of_eq hlen.symm)
    rw [hsnd, hlzip]
    rcases Nat.eq_zero_or_pos names.length with h0 | h0
    · have hnames : names = [] := List.length_eq_zero.1 h0
      have hamounts : amounts = [] := List.length_eq_zero.1 (hlen ▸ h0)
      subst hnames
      subst hamounts
      simp
    · have hsval : s = amounts.sum / (names.length : ℚ) := by
        rw [hs]
        simp only [compute_balances, if_pos h0]
      rw [hsval]
      have hne : (names.length : ℚ) ≠ 0 := by
        exact_mod_cast Nat.pos_iff_ne_zero.1 h0
      field_simp
  have hbound := round2_sum_bound (l.map (fun q => q.2 - s))
  rw [hraw, sub_zero] at hbound
  have hlen2 : ((l.map (fun q => q.2 - s)).length : ℚ) = (names.length : ℚ) := by
    rw [List.length_map, hlzip]
  rw [hlen2] at hbound
  have hnn : (0:ℚ) ≤ (names.length : ℚ) := by positivity
  nlinarith

/-- C6: on equal-length inputs with distinct names, `compute_balances`
returns exactly what the specification describes: the amount total, the
`total / N` (or `0`) share, and the pointwise-rounded balance mapping. -/
theorem compute_balances_correct (names : List String) (amounts : List ℚ)
    (hlen : names.length = amounts.length) (hnd : names.Nodup) :
    compute_balances names amounts = compute_balances_spec names amounts := by
  have h3 := compute_balances_eq_map names amounts hnd
  unfold compute_balances_spec
  apply Prod.ext
  · rfl
  · apply Prod.ext
    · rfl
    · rw [h3]
      rfl

/-- C10: if the two lists have different lengths (unique names still
assumed), the returned total nonetheless sums the whole amounts list, while
the balance mapping silently truncates to `min(len(names), len(amounts))`
entries, because `zip` stops at the shorter list. -/
theorem compute_balances_unequal_lengths (names : List String) (amounts : List ℚ)
    (hne : names.length ≠ amounts.length) (hnd : names.Nodup) :
    (compute_balances names amounts).1 = amounts.sum ∧
    ((compute_balances names amounts).2.2).length =
      min names.length amounts.length := by
  refine ⟨rfl, ?_⟩
  rw [compute_balances_eq_map names amounts hnd, List.length_map, List.length_zip]

/-- C7: running `compute_balances` followed by `settle_debts` twice on
identical inputs yields identical totals, shares, balance mappings and
transaction lists.  Both functions are modelled (faithfully to the source,
which reads no global state and mutates only locals) as pure functions, so
the two runs coincide definitionally. -/
theorem run_split_deterministic (names : List String) (amounts : List ℚ) :
    run_split names amounts = run_split names amounts := rfl

/-! ### Frame property: the input dictionary is never written -/

theorem settleLoopSt_bal :
    ∀ (fuel : ℕ) (bal D C : List (String × ℚ)) r,
      settleLoopSt fuel bal D C = some r → r.2 = bal := by
  intro fuel
  induction fuel with
  | zero =>
      intro bal D C r h
      cases D with
      | nil =>
          cases C <;> (simp only [settleLoopSt] at h; rw [← Option.some_inj.1 h])
      | cons d D' =>
          cases C with
          | nil =>
              simp only [settleLoopSt] at h
              rw [← Option.some_inj.1 h]
          | cons c C' => exact absurd h (by exact fun hc => Option.noConfusion hc)
  | succ n ih =>
      intro bal D C r h
      cases D with
      | nil =>
          cases C <;> (simp only [settleLoopSt] at h; rw [← Option.some_inj.1 h])
      | cons d D' =>
          cases C with
          | nil =>
              simp only [settleLoopSt] at h
              rw [← Option.some_inj.1 h]
          | cons c C' =>
              simp only [settleLoopSt] at h
              cases hrec : settleLoopSt n bal
                  (if round2 (d.2 - round2 (min d.2 c.2)) < 1/100 then D'
                   else (d.1, round2 (d.2 - round2 (min d.2 c.2))) :: D')
                  (if round2 (c.2 - round2 (min d.2 c.2)) < 1/100 then C'
                   else (c.1, round2 (c.2 - round2 (min d.2 c.2))) :: C') with
              | none =>
                  rw [hrec] at h
                  exact absurd h (by exact fun hc => Option.noConfusion hc)
              | some r' =>
                  obtain ⟨txs', bal'⟩ := r'
                  rw [hrec] at h
                  have hb : bal' = bal := ih bal _ _ (txs', bal') hrec
                  simp only [Option.some_inj] at h
                  rw [← h]
                  exact hb

/-- C8: `settle_debts` does not modify its input: the balance dictionary
after the call is exactly the one passed in — same keys, same values, same
order; the sweep works only on the fresh local creditor/debtor lists. -/
theorem settle_debts_state_preserves (bal : List (String × ℚ))
    (txs : List (String × String × ℚ)) (bal' : List (String × ℚ))
    (h : settle_debts_state bal = some (txs, bal')) : bal' = bal := by
  simp only [settle_debts_state] at h
  exact settleLoopSt_bal _ _ _ _ (txs, bal') h

/-! ### Concrete-evaluation helpers

`Rat` arithmetic does not reduce definitionally in this toolchain, so
concrete runs are evaluated through `norm_num` with the helper equations
below rather than by `decide`. -/

theorem finalBal_nil (p : String × ℚ) : finalBal p [] = p.2 := by
  unfold finalBal paidBy recvBy
  simp

theorem settleLoop_succ_eval (fuel : ℕ) (d c : String × ℚ)
    (D C : List (String × ℚ)) (txs : List (String × String × ℚ))
    (De Ce : List (String × ℚ)) (amt : ℚ)
    (hamt : stepAmount d c = amt) (hpos : 0 < amt)
    (hrec : settleLoop fuel (stepNewD d c D) (stepNewC d c C) = some (txs, De, Ce)) :
    settleLoop (fuel + 1) (d :: D) (c :: C) = some ((d.1, c.1, amt) :: txs, De, Ce) := by
  rw [settleLoop_succ, hrec]
  show some (if 0 < stepAmount d c then
      (d.1, c.1, stepAmount d c) :: txs else txs, De, Ce) = _
  rw [hamt, if_pos hpos]

theorem compute_balances_eval (names : List String) (amounts : List ℚ)
    (total share : ℚ) (bal : List (String × ℚ)) (hnd : names.Nodup)
    (htot : amounts.sum = total)
    (hshare : (if 0 < names.length then total / (names.length : ℚ) else 0) = share)
    (hbal : (names.zip amounts).map (fun q => (q.1, round2 (q.2 - share))) = bal) :
    compute_balances names amounts = (total, share, bal) := by
  have hsh : (compute_balances names amounts).2.1 = share := by
    show (if 0 < names.length then amounts.sum / (names.length : ℚ) else 0) = share
    rw [htot]
    exact hshare
  apply Prod.ext
  · exact htot
  · apply Prod.ext
    · exact hsh
    · rw [compute_balances_eq_map names amounts hnd, hsh, hbal]

theorem settle_debts_eval (bal : List (String × ℚ)) (D C : List (String × ℚ))
    (txs : List (String × String × ℚ)) (De Ce : List (String × ℚ))
    (hD : sortDesc (debtorsOf bal) = D) (hC : sortDesc (creditorsOf bal) = C)
    (hsl : settleLoop (D.length + C.length) D C = some (txs, De, Ce)) :
    settle_debts bal = some txs := by
  simp only [settle_debts]
  rw [hD, hC, hsl]
  rfl

theorem stepAmount_eval (d c : String × ℚ) (a : ℚ) (k : ℤ)
    (hmin : min d.2 c.2 = a) (hcent : 100 * a = (k : ℚ)) : stepAmount d c = a := by
  unfold stepAmount
  rw [hmin]
  exact round2_cent a k hcent

/-- Scenario 1 of the spec: amounts 90/30/60 give total 180, share 60 and
balances A:+30, B:-30, C:0. -/
theorem compute_balances_s1 :
    compute_balances ["A", "B", "C"] [90, 30, 60] =
      (180, 60, [("A", 30), ("B", -30), ("C", 0)]) := by
  apply compute_balances_eval _ _ _ _ _ (by decide)
  · norm_num
  · norm_num
  · have h1 : round2 ((90:ℚ) - 60) = 30 := by
      rw [show ((90:ℚ) - 60) = 30 by norm_num]
      exact round2_cent _ 3000 (by norm_num)
    have h2 : round2 ((30:ℚ) - 60) = -30 := by
      rw [show ((30:ℚ) - 60) = -30 by norm_num]
      exact round2_cent _ (-3000) (by norm_num)
    have h3 : round2 ((60:ℚ) - 60) = 0 := by
      rw [show ((60:ℚ) - 60) = 0 by norm_num]
      exact round2_zero
    simp [List.zip_cons_cons, h1, h2, h3, round2_zero]

theorem compute_balances_s1_bal :
    (compute_balances ["A", "B", "C"] [90, 30, 60]).2.2 =
      [("A", 30), ("B", -30), ("C", 0)] := by
  rw [compute_balances_s1]

theorem settle_debts_s1 :
    settle_debts [("A", (30:ℚ)), ("B", -30), ("C", 0)] = some [("B", "A", 30)] := by
  apply settle_debts_eval _ [("B", 30)] [("A", 30)] _ [] []
  · norm_num [debtorsOf, sortDesc, insertDesc, List.filterMap_cons, List.filterMap_nil]
  · norm_num [creditorsOf, sortDesc, insertDesc, List.filterMap_cons, List.filterMap_nil]
  · have hamt : stepAmount ("B", (30:ℚ)) ("A", 30) = 30 :=
      stepAmount_eval _ _ 30 3000 (by norm_num [min_def]) (by norm_num)
    have hND : stepNewD ("B", (30:ℚ)) ("A", 30) [] = [] :=
      stepNewD_of_le (by norm_num) []
    have hNC : stepNewC ("B", (30:ℚ)) ("A", 30) [] = [] :=
      stepNewC_of_le (by norm_num) []
    exact settleLoop_succ_eval 1 ("B", 30) ("A", 30) [] [] [] [] [] 30 hamt
      (by norm_num) (by rw [hND, hNC]; exact settleLoop_nil_left 1 [])

/-- Scenario 3 of the spec: amounts 100/0/0/0 give share 25 and balances
A:+75, B:-25, C:-25, D:-25. -/
theorem compute_balances_s3 :
    compute_balances ["A", "B", "C", "D"] [100, 0, 0, 0] =
      (100, 25, [("A", 75), ("B", -25), ("C", -25), ("D", -25)]) := by
  apply compute_balances_eval _ _ _ _ _ (by decide)
  · norm_num
  · norm_num
  · have h1 : round2 ((100:ℚ) - 25) = 75 := by
      rw [show ((100:ℚ) - 25) = 75 by norm_num]
      exact round2_cent _ 7500 (by norm_num)
    have h2 : round2 ((-25:ℚ)) = -25 := round2_cent _ (-2500) (by norm_num)
    simp [List.zip_cons_cons, h1, h2]

theorem settle_debts_s3 :
    settle_debts [("A", (75:ℚ)), ("B", -25), ("C", -25), ("D", -25)] =
      some [("B", "A", 25), ("C", "A", 25), ("D", "A", 25)] := by
  apply settle_debts_eval _ [("B", 25), ("C", 25), ("D", 25)] [("A", 75)] _ [] []
  · norm_num [debtorsOf, sortDesc, insertDesc, List.filterMap_cons, List.filterMap_nil]
  · norm_num [creditorsOf, sortDesc, insertDesc, List.filterMap_cons, List.filterMap_nil]
  · -- iteration 3: D pays A the last 25, both sides retire
    have hamt3 : stepAmount ("D", (25:ℚ)) ("A", 25) = 25 :=
      stepAmount_eval _ _ 25 2500 (by norm_num [min_def]) (by norm_num)
    have hND3 : stepNewD ("D", (25:ℚ)) ("A", 25) [] = [] :=
      stepNewD_of_le (by norm_num) []
    have hNC3 : stepNewC ("D", (25:ℚ)) ("A", 25) [] = [] :=
      stepNewC_of_le (by norm_num) []
    have h3 : settleLoop 2 [("D", (25:ℚ))] [("A", 25)] =
        some ([("D", "A", 25)], [], []) :=
      settleLoop_succ_eval 1 ("D", 25) ("A", 25) [] [] [] [] [] 25 hamt3
        (by norm_num) (by rw [hND3, hNC3]; exact settleLoop_nil_left 1 [])
    -- iteration 2: C pays A 25, A's remaining need drops to 25
    have hamt2 : stepAmount ("C", (25:ℚ)) ("A", 50) = 25 :=
      stepAmount_eval _ _ 25 2500 (by norm_num [min_def]) (by norm_num)
    have hND2 : stepNewD ("C", (25:ℚ)) ("A", 50) [("D", 25)] = [("D", 25)] :=
      stepNewD_of_le (by norm_num) _
    have hNC2 : stepNewC ("C", (25:ℚ)) ("A", 50) [] = [("A", 25)] := by
      rw [stepNewC_cent_of_le ⟨2500, by norm_num⟩ ⟨5000, by norm_num⟩ (by norm_num) []]
      norm_num
    have h2 : settleLoop 3 [("C", (25:ℚ)), ("D", 25)] [("A", 50)] =
        some ([("C", "A", 25), ("D", "A", 25)], [], []) :=
      settleLoop_succ_eval 2 ("C", 25) ("A", 50) [("D", 25)] [] _ [] [] 25 hamt2
        (by norm_num) (by rw [hND2, hNC2]; exact h3)
    -- iteration 1: B pays A 25, A's remaining need drops to 50
    have hamt1 : stepAmount ("B", (25:ℚ)) ("A", 75) = 25 :=
      stepAmount_eval _ _ 25 2500 (by norm_num [min_def]) (by norm_num)
    have hND1 : stepNewD ("B", (25:ℚ)) ("A", 75) [("C", 25), ("D", 25)] =
        [("C", 25), ("D", 25)] :=
      stepNewD_of_le (by norm_num) _
    have hNC1 : stepNewC ("B", (25:ℚ)) ("A", 75) [] = [("A", 50)] := by
      rw [stepNewC_cent_of_le ⟨2500, by norm_num⟩ ⟨7500, by norm_num⟩ (by norm_num) []]
      norm_num
    exact settleLoop_succ_eval 3 ("B", 25) ("A", 75) [("C", 25), ("D", 25)] [] _ [] [] 25
      hamt1 (by norm_num) (by rw [hND1, hNC1]; exact h2)

/-- The tolerance-gap input: per-person rounding leaves A with +0.03 while
B, C, D sit exactly at the -0.01 threshold and are not partitioned as
debtors. -/
theorem compute_balances_cex :
    compute_balances ["A", "B", "C", "D"] [103/100, 99/100, 99/100, 99/100] =
      (4, 1, [("A", 3/100), ("B", -1/100), ("C", -1/100), ("D", -1/100)]) := by
  apply compute_balances_eval _ _ _ _ _ (by decide)
  · norm_num
  · norm_num
  · have h1 : round2 ((103:ℚ)/100 - 1) = 3/100 := by
      rw [show ((103:ℚ)/100 - 1) = 3/100 by norm_num]
      exact round2_cent _ 3 (by norm_num)
    have h2 : round2 ((99:ℚ)/100 - 1) = -1/100 := by
      rw [show ((99:ℚ)/100 - 1) = -1/100 by norm_num]
      exact round2_cent _ (-1) (by norm_num)
    simp [List.zip_cons_cons, h1, h2]

/-- On those balances nobody is below `-0.01`, so there are no debtors, the
sweep never runs, and A's `+0.03` is never settled. -/
theorem settle_debts_cex :
    settle_debts [("A", (3:ℚ)/100), ("B", -1/100), ("C", -1/100), ("D", -1/100)] =
      some [] := by
  apply settle_debts_eval _ [] [("A", 3/100)] _ [] [("A", 3/100)]
  · norm_num [debtorsOf, sortDesc, List.filterMap_cons, List.filterMap_nil]
  · norm_num [creditorsOf, sortDesc, insertDesc, List.filterMap_cons, List.filterMap_nil]
  · exact settleLoop_nil_left 1 _

theorem settle_debts_w :
    settle_debts [("A", (2:ℚ)), ("B", -2)] = some [("B", "A", 2)] := by
  apply settle_debts_eval _ [("B", 2)] [("A", 2)] _ [] []
  · norm_num [debtorsOf, sortDesc, insertDesc, List.filterMap_cons, List.filterMap_nil]
  · norm_num [creditorsOf, sortDesc, insertDesc, List.filterMap_cons, List.filterMap_nil]
  · have hamt : stepAmount ("B", (2:ℚ)) ("A", 2) = 2 :=
      stepAmount_eval _ _ 2 200 (by norm_num [min_def]) (by norm_num)
    have hND : stepNewD ("B", (2:ℚ)) ("A", 2) [] = [] :=
      stepNewD_of_le (by norm_num) []
    have hNC : stepNewC ("B", (2:ℚ)) ("A", 2) [] = [] :=
      stepNewC_of_le (by norm_num) []
    exact settleLoop_succ_eval 1 ("B", 2) ("A", 2) [] [] [] [] [] 2 hamt
      (by norm_num) (by rw [hND, hNC]; exact settleLoop_nil_left 1 [])

theorem settle_debts_state_w :
    settle_debts_state [("A", (2:ℚ))] = some ([], [("A", 2)]) := by
  simp only [settle_debts_state]
  have hD : sortDesc (debtorsOf [("A", (2:ℚ))]) = [] := by
    norm_num [debtorsOf, sortDesc, List.filterMap_cons, List.filterMap_nil]
  have hC : sortDesc (creditorsOf [("A", (2:ℚ))]) = [("A", 2)] := by
    norm_num [creditorsOf, sortDesc, insertDesc, List.filterMap_cons, List.filterMap_nil]
  rw [hD, hC]
  rfl

/-! ### The claims -/

/-- C9: the concrete tied-debtors scenario: names A,B,C,D with amounts
100,0,0,0 give share 25 and balances A:+75, B:-25, C:-25, D:-25, and
settlement produces exactly B→A 25, C→A 25, D→A 25 in that order — the
tied debtors keep their insertion order because the descending sort is
stable. -/
theorem scenario_tied_debtors :
    compute_balances ["A", "B", "C", "D"] [100, 0, 0, 0] =
      (100, 25, [("A", 75), ("B", -25), ("C", -25), ("D", -25)]) ∧
    settle_debts [("A", (75:ℚ)), ("B", -25), ("C", -25), ("D", -25)] =
      some [("B", "A", 25), ("C", "A", 25), ("D", "A", 25)] :=
  ⟨compute_balances_s3, settle_debts_s3⟩

/-- C1 counterexample: for names A,B,C,D and non-negative, equal-length
amounts 1.03, 0.99, 0.99, 0.99, the balances are A:+0.03 and three entries
at exactly -0.01; no debtor exceeds the tolerance, the sweep emits no
transaction, and A's final balance 0.03 is not within 0.01 of zero — the
claim as stated fails on this input. -/
theorem settlement_tolerance_cex :
    (["A", "B", "C", "D"] : List String).length =
      ([103/100, 99/100, 99/100, 99/100] : List ℚ).length ∧
    (∀ a ∈ ([103/100, 99/100, 99/100, 99/100] : List ℚ), 0 ≤ a) ∧
    settle_debts
      (compute_balances ["A", "B", "C", "D"] [103/100, 99/100, 99/100, 99/100]).2.2 =
      some [] ∧
    ¬ (∀ p ∈ (compute_balances ["A", "B", "C", "D"]
          [103/100, 99/100, 99/100, 99/100]).2.2, |finalBal p []| ≤ 1/100) := by
  have hbal : (compute_balances ["A", "B", "C", "D"]
      [103/100, 99/100, 99/100, 99/100]).2.2 =
      [("A", 3/100), ("B", -1/100), ("C", -1/100), ("D", -1/100)] := by
    rw [compute_balances_cex]
  refine ⟨rfl, by norm_num, ?_, ?_⟩
  · rw [hbal]
    exact settle_debts_cex
  · intro hall
    have h := hall ("A", 3/100) (by rw [hbal]; simp)
    rw [finalBal_nil] at h
    rw [abs_of_nonneg (by norm_num : (0:ℚ) ≤ (("A", (3:ℚ)/100) : String × ℚ).2)] at h
    norm_num at h

/-- C1 witness (for the amended theorem): in scenario 1 the hypotheses hold
and participant A indeed ends within `0.01` of zero. -/
theorem settlement_within_tolerance_witness :
    |finalBal ("A", (30:ℚ)) [("B", "A", 30)]| ≤ 1/100 :=
  settlement_within_tolerance ["A", "B", "C"] [90, 30, 60] rfl (by norm_num)
    (by rw [compute_balances_s1_bal]
        norm_num [creditorsOf, debtorsOf, sumAmts,
          List.filterMap_cons, List.filterMap_nil])
    [("B", "A", 30)]
    (by rw [compute_balances_s1_bal]; exact settle_debts_s1)
    ("A", 30) (by rw [compute_balances_s1_bal]; simp)

theorem balances_sum_within_witness :
    |sumAmts (compute_balances ["A", "B"] [1, 2]).2.2| ≤
      ((["A", "B"] : List String).length : ℚ) * (1/100) :=
  balances_sum_within ["A", "B"] [1, 2] rfl (by decide)

theorem settle_debts_txs_pos_ne_witness :
    0 < (("B", "A", (2:ℚ)) : String × String × ℚ).2.2 ∧
    (("B", "A", (2:ℚ)) : String × String × ℚ).1 ≠ ("B", "A", (2:ℚ)).2.1 :=
  settle_debts_txs_pos_ne [("A", 2), ("B", -2)] (by decide) [("B", "A", 2)]
    settle_debts_w ("B", "A", 2) (by simp)

/-- C4 counterexample: with the empty balance mapping, `settle_debts`
returns the empty transaction list, yet the claimed bound
`creditors + debtors - 1` evaluates to `-1`, so `0 ≤ -1` fails: the claim
as stated is false for a mapping with no creditors and no debtors. -/
theorem txs_count_cex :
    settle_debts ([] : List (String × ℚ)) = some [] ∧
    ¬ ((([] : List (String × String × ℚ)).length : ℤ) ≤
        ((creditorsOf []).length : ℤ) + ((debtorsOf []).length : ℤ) - 1) := by
  constructor
  · rfl
  · intro h
    simp [creditorsOf, debtorsOf] at h

theorem settle_debts_txs_count_witness :
    ((([("B", "A", (2:ℚ))]) : List (String × String × ℚ)).length : ℤ) ≤
      max (((creditorsOf [("A", (2:ℚ)), ("B", -2)]).length : ℤ) +
        ((debtorsOf [("A", (2:ℚ)), ("B", -2)]).length : ℤ) - 1) 0 :=
  settle_debts_txs_count [("A", 2), ("B", -2)] [("B", "A", 2)] settle_debts_w

theorem compute_balances_correct_witness :
    compute_balances ["A", "B"] [1, 2] = compute_balances_spec ["A", "B"] [1, 2] :=
  compute_balances_correct ["A", "B"] [1, 2] rfl (by decide)

theorem settle_debts_state_preserves_witness :
    [("A", (2:ℚ))] = [("A", 2)] :=
  settle_debts_state_preserves [("A", 2)] [] [("A", 2)] settle_debts_state_w

theorem compute_balances_unequal_witness :
    (compute_balances ["A", "B", "C"] [1, 2]).1 = ([1, 2] : List ℚ).sum ∧
    ((compute_balances ["A", "B", "C"] [1, 2]).2.2).length =
      min (["A", "B", "C"] : List String).length ([1, 2] : List ℚ).length :=
  compute_balances_unequal_lengths ["A", "B", "C"] [1, 2] (by decide) (by decide)
